import Mathlib

/-!
Verification of the libfdt++ flattened-device-tree reader (src/fdt.hpp).

The development shallowly embeds the C++ sources into Lean:

* memory is a byte buffer `Blob := List Nat`; a read outside the buffer
  yields 0 (all facts proved here only exercise reads inside the regions
  whose contents are pinned down by hypotheses, so the default value is
  never load-bearing);
* pointers are byte addresses (`Nat`); a null pointer is `Option.none`;
  dereferencing a null pointer is undefined behaviour in the source and is
  modelled by the dedicated result value `ub`;
* `uint32_t` arithmetic is `Nat` arithmetic (every 32-bit quantity handled
  by the library is built from four bytes, hence `< 2^32`, so no wrapping
  is dropped);
* the unbounded loops/recursion of the engine take an explicit fuel
  argument; running out of fuel is the result value `out`, distinct from
  every real outcome.

Sections: the embedded code, the specification-side model (trees, their
wire format, traversal events), supporting lemmas, and one theorem (plus
witness) per specification claim.
-/

set_option maxRecDepth 10000

namespace fdt

/-- A byte buffer. Entries are reduced mod 256 on access, so a `Blob` read
always yields a byte, matching machine memory. -/
abbrev Blob := List Nat

/-- Byte at address `a`; addresses outside the buffer read as 0. -/
def byteAt (b : Blob) (a : Nat) : Nat := b.getD a 0 % 256

-- Token and magic constants, from the FDT_* defines in fdt.hpp.

def FDT_MAGIC : Nat := 0xD00DFEED

def FDT_BEGIN_NODE : Nat := 0x00000001

def FDT_END_NODE : Nat := 0x00000002

def FDT_PROP : Nat := 0x00000003

def FDT_NOP : Nat := 0x00000004

def FDT_END : Nat := 0x00000009

/-- Return value ALL_OK of the traversal function. -/
def ALL_OK : Int := 0

/-- Return value INVALID_STRUCTURE_BLOCK of the traversal function. -/
def INVALID_STRUCTURE_BLOCK : Int := -1

namespace Utilities

/-- Loop body of `Utilities::strlen`, with fuel. The C++ loop scans for the
first 0 byte; the fuel chosen in `strlen` always suffices because reads past
the end of the buffer yield 0. -/
def strlenAux (b : Blob) : Nat → Nat → Nat
  | _, 0 => 0
  | a, fuel + 1 => if byteAt b a = 0 then 0 else strlenAux b (a + 1) fuel + 1

/-- `Utilities::strlen` on a string living at address `a` of blob `b`. -/
def strlen (b : Blob) (a : Nat) : Nat := strlenAux b a (b.length + 1 - a)

/-- Loop body of `Utilities::strcmp`, with fuel: compare the byte strings at
`a1` in `b1` and `a2` in `b2`. Stops at the first position where both bytes
are 0 (equal) or the bytes differ. -/
def strcmpAux (b1 b2 : Blob) : Nat → Nat → Nat → Int
  | _, _, 0 => 0
  | a1, a2, fuel + 1 =>
    let x := byteAt b1 a1
    let y := byteAt b2 a2
    if x = 0 ∧ y = 0 then 0
    else if x < y then -1
    else if y < x then 1
    else strcmpAux b1 b2 (a1 + 1) (a2 + 1) fuel

/-- `Utilities::strcmp` comparing the C string at `a1` in `b1` with the one
at `a2` in `b2`. The fuel `b1.length + 1` always reaches the first stopping
position, because a byte of the left string that is ≠ 0 lies inside `b1`. -/
def strcmp (b1 : Blob) (a1 : Nat) (b2 : Blob) (a2 : Nat) : Int :=
  strcmpAux b1 b2 a1 a2 (b1.length + 1)

/-- `Utilities::strncmp`: compare at most `n` bytes, stopping early when both
strings end or a difference is found. -/
def strncmp (b1 : Blob) (a1 : Nat) (b2 : Blob) (a2 : Nat) : Nat → Int
  | 0 => 0
  | n + 1 =>
    let x := byteAt b1 a1
    let y := byteAt b2 a2
    if x = 0 ∧ y = 0 then 0
    else if x < y then -1
    else if y < x then 1
    else strncmp b1 (a1 + 1) b2 (a2 + 1) n

/-- Loop body of `Utilities::strchr`, with fuel: the address of the first
occurrence of byte `c` at or after `a`, or `none` when a 0 byte comes first
(the C++ function returns nullptr then). -/
def strchrAux (b : Blob) (c : Nat) : Nat → Nat → Option Nat
  | _, 0 => none
  | a, fuel + 1 =>
    let v := byteAt b a
    if v = 0 then none
    else if v = c then some a
    else strchrAux b c (a + 1) fuel

/-- `Utilities::strchr` on the string at address `a` of blob `b`. -/
def strchr (b : Blob) (a : Nat) (c : Nat) : Option Nat :=
  strchrAux b c a (b.length + 1 - a)

end Utilities

namespace FdtEngine

/-- The 32-bit value a little-endian host obtains by dereferencing a
`uint32_t*` at byte address `a` (bytes assembled low-to-high). -/
def load_le (b : Blob) (a : Nat) : Nat :=
  byteAt b a + byteAt b (a + 1) * 256 + byteAt b (a + 2) * 65536 +
    byteAt b (a + 3) * 16777216

/-- The 32-bit value a big-endian host obtains by dereferencing a
`uint32_t*` at byte address `a` (bytes assembled high-to-low); on such a
host `FdtEngine::read_value` returns `*ptr` unchanged. -/
def load_be (b : Blob) (a : Nat) : Nat :=
  byteAt b a * 16777216 + byteAt b (a + 1) * 65536 + byteAt b (a + 2) * 256 +
    byteAt b (a + 3)

/-- `FdtEngine::read_value` as compiled for a little-endian host: the raw
wide load `*ptr` followed by the byte-swap expression from the source,
`((v & 0xFF) << 24) | ((v & 0xFF00) << 8) | ((v & 0xFF0000) >> 8) |
((v & 0xFF000000) >> 24)`. All four summands stay below 2^32, so plain
`Nat` operators model the `uint32_t` ones exactly. -/
def read_value (b : Blob) (a : Nat) : Nat :=
  let v := load_le b a
  ((v &&& 0xFF) <<< 24) ||| ((v &&& 0xFF00) <<< 8) |||
    ((v &&& 0xFF0000) >>> 8) ||| ((v &&& 0xFF000000) >>> 24)

/-- `FdtEngine::get_aligned_after_offset`: `ptr + (offset/4 + (offset%4 ? 1 : 0))`
in `uint32_t*` units, expressed in byte addresses. -/
def get_aligned_after_offset (a : Nat) (offset : Nat) : Nat :=
  a + 4 * (offset / 4 + if offset % 4 = 0 then 0 else 1)

/-- `FdtEngine::move_to_next_token`. Token pointers are byte addresses;
`++token_ptr` on a `uint32_t*` is `+ 4`. An unknown tag leaves the pointer
unchanged (the C++ function falls through all branches). -/
def move_to_next_token (b : Blob) (a : Nat) : Nat :=
  let token := read_value b a
  if token = FDT_BEGIN_NODE then
    let a' := a + 4
    let str_size := Utilities.strlen b a'
    if str_size ≠ 0 then get_aligned_after_offset a' (str_size + 1)
    else a' + 4
  else if token = FDT_END_NODE then a + 4
  else if token = FDT_PROP then
    let a' := a + 4
    let prop_length := read_value b a'
    get_aligned_after_offset a' (8 + prop_length)
  else if token = FDT_NOP then a + 4
  else a

/-- `FdtEngine::get_structure_block_ptr`: header base plus the decoded
`off_dt_struct` field (byte offset 8 of the header). -/
def get_structure_block_ptr (b : Blob) (h : Nat) : Nat :=
  h + read_value b (h + 8)

/-- `FdtEngine::get_string_block_ptr`: header base plus the decoded
`off_dt_strings` field (byte offset 12 of the header). -/
def get_string_block_ptr (b : Blob) (h : Nat) : Nat :=
  h + read_value b (h + 12)

end FdtEngine

/-- A `TraversalAction`: the four virtual hooks plus the satisfaction
predicate, over visitor state `σ`. A hook returns `none` when running it
would dereference a null pointer (undefined behaviour in the source). -/
structure TAction (σ : Type) where
  on_begin : Nat → σ → Option σ
  on_end : Nat → σ → Option σ
  on_prop : Nat → σ → Option σ
  on_nop : Nat → σ → Option σ
  satisfied : σ → Bool

/-- Outcome of a run of `FdtEngine::traverse_node`: a normal return
(return value, final token pointer, final visitor state), undefined
behaviour (`ub`, a null-pointer dereference), or exhausted fuel (`out`). -/
inductive TravResult (σ : Type) where
  | ok (retval : Int) (pos : Nat) (state : σ)
  | ub
  | out
deriving DecidableEq

mutual

/-- `FdtEngine::traverse_node`. `hdr` is the (possibly null) header
pointer; the visitor state is threaded explicitly. The first token must be
BEGIN_NODE, whose hook fires unconditionally; otherwise the function
returns INVALID_STRUCTURE_BLOCK with the token pointer untouched. -/
def traverse_node (b : Blob) (hdr : Option Nat) {σ : Type} (act : TAction σ) :
    Nat → Nat → σ → TravResult σ
  | 0, _, _ => .out
  | fuel + 1, p, s =>
    if FdtEngine.read_value b p = FDT_BEGIN_NODE then
      match act.on_begin p s with
      | none => .ub
      | some s1 => traverse_loop b hdr act fuel p (FdtEngine.move_to_next_token b p) s1
    else .ok INVALID_STRUCTURE_BLOCK p s

/-- The `while(true)` loop of `FdtEngine::traverse_node`. `start` is the
`start_token` captured on entry, used to decide whether the walk began at
the structure block's first token. -/
def traverse_loop (b : Blob) (hdr : Option Nat) {σ : Type} (act : TAction σ) :
    Nat → Nat → Nat → σ → TravResult σ
  | 0, _, _, _ => .out
  | fuel + 1, start, p, s =>
    if act.satisfied s then .ok ALL_OK p s
    else
      let token := FdtEngine.read_value b p
      if token = FDT_BEGIN_NODE then
        match traverse_node b hdr act fuel p s with
        | .ok r q s' =>
          if r = ALL_OK then traverse_loop b hdr act fuel start q s' else .ok r q s'
        | .ub => .ub
        | .out => .out
      else if token = FDT_END_NODE then
        match act.on_end p s with
        | none => .ub
        | some s' =>
          let q := FdtEngine.move_to_next_token b p
          match hdr with
          | none => .ub
          | some h =>
            if start ≠ FdtEngine.get_structure_block_ptr b h then .ok ALL_OK q s'
            else traverse_loop b hdr act fuel start q s'
      else if token = FDT_PROP then
        match act.on_prop p s with
        | none => .ub
        | some s' => traverse_loop b hdr act fuel start (FdtEngine.move_to_next_token b p) s'
      else if token = FDT_NOP then
        match act.on_nop p s with
        | none => .ub
        | some s' => traverse_loop b hdr act fuel start (FdtEngine.move_to_next_token b p) s'
      else if token = FDT_END then
        match hdr with
        | none => .ub
        | some h =>
          if start = FdtEngine.get_structure_block_ptr b h then .ok ALL_OK p s
          else .ok INVALID_STRUCTURE_BLOCK p s
      else .ok INVALID_STRUCTURE_BLOCK p s

end

/-- `FdtNode`: a header pointer and a token pointer, both null in a
default-constructed (invalid) node. -/
structure FdtNode where
  m_node_token_start : Option Nat := none
  m_fdt_header : Option Nat := none
deriving DecidableEq

/-- `FdtNode::is_valid`. -/
def FdtNode.is_valid (n : FdtNode) : Bool :=
  n.m_fdt_header.isSome && n.m_node_token_start.isSome

/-- `NodeFinder::is_same_as`, comparing the node name at address
`node_string` of the blob against the finder's target name and optional
unit address (user-supplied strings are modelled as little blobs read from
address 0; `'@'` is byte 64). The null check on `node_string` of the
source cannot fire here because the engine always passes `token + 1`. -/
def NodeFinder.is_same_as (b : Blob) (m_node_name : Option Blob)
    (m_unit_address : Option Blob) (node_string : Nat) : Bool :=
  match m_node_name with
  | none => false
  | some tgt =>
    match m_unit_address with
    | some ua =>
      match Utilities.strchr b node_string 64 with
      | some at_loc =>
        let node_name_length := at_loc - node_string
        if Utilities.strncmp b node_string tgt 0 node_name_length = 0 then
          Utilities.strcmp b (at_loc + 1) ua 0 = 0
        else false
      | none => false
    | none => Utilities.strcmp b node_string tgt 0 = 0

/-- The `NodeFinder` action. Its state is `m_result` (an `FdtNode`,
initially invalid). `on_FDT_BEGIN_NODE` reads the name right after the
token and records `FdtNode(token, header)` on a match; the other hooks are
the no-ops inherited from `TraversalAction`. -/
def nfAction (b : Blob) (hdr : Option Nat) (m_node_name m_unit_address : Option Blob) :
    TAction FdtNode where
  on_begin := fun token s =>
    some (match m_node_name with
      | none => s
      | some _ =>
        if NodeFinder.is_same_as b m_node_name m_unit_address (token + 4) then
          { m_node_token_start := some token, m_fdt_header := hdr }
        else s)
  on_end := fun _ s => some s
  on_prop := fun _ s => some s
  on_nop := fun _ s => some s
  satisfied := fun s => s.is_valid

/-- State of a `PropertyFinder`. -/
structure PropertyFinder where
  m_result : Option Nat := none
  m_looked_property : Option Blob
  m_property_length : Nat := 0
  m_property_found : Bool := false
deriving DecidableEq

/-- The `PropertyFinder` action. `on_FDT_PROP_NODE` resolves the property
name through the string block, and on a match stores the length and — only
when that length is nonzero — the value pointer `token + 12` (the token
plus the 8-byte descriptor). Resolving the name dereferences the header,
and comparing dereferences the looked-for name, so a null in either place
is undefined behaviour. -/
def pfAction (b : Blob) (hdr : Option Nat) : TAction PropertyFinder where
  on_begin := fun _ s => some s
  on_end := fun _ s => some s
  on_prop := fun token s =>
    match hdr, s.m_looked_property with
    | some h, some lk =>
      let property_name := FdtEngine.get_string_block_ptr b h + FdtEngine.read_value b (token + 8)
      some (if Utilities.strcmp b property_name lk 0 = 0 then
          let len := FdtEngine.read_value b (token + 4)
          { s with m_property_length := len,
                   m_result := if len ≠ 0 then some (token + 12) else s.m_result,
                   m_property_found := true }
        else s)
    | _, _ => none
  on_nop := fun _ s => some s
  satisfied := fun s => s.m_property_found

/-- Outcome of an `FdtNode` operation: the returned value, undefined
behaviour, or exhausted fuel. -/
inductive Res (α : Type) where
  | ok (value : α)
  | ub
  | out
deriving DecidableEq

/-- `FdtNode::get_sub_node`: run a `NodeFinder` over the subtree and return
its `result()`, whatever the traversal's return value. A null
`m_node_token_start` makes the very first `read_value` dereference null. -/
def FdtNode.get_sub_node (b : Blob) (fuel : Nat) (n : FdtNode)
    (node_name unit_address : Option Blob) : Res FdtNode :=
  match n.m_node_token_start with
  | none => .ub
  | some p =>
    match traverse_node b n.m_fdt_header
        (nfAction b n.m_fdt_header node_name unit_address) fuel p {} with
    | .ok _ _ s => .ok s
    | .ub => .ub
    | .out => .out

/-- Run a `PropertyFinder` over the subtree of `n` and return its final
state; `get_property` and `has_property` both perform exactly this
traversal and read one getter each. -/
def FdtNode.run_property_finder (b : Blob) (fuel : Nat) (n : FdtNode)
    (property_name : Option Blob) : Res PropertyFinder :=
  match n.m_node_token_start with
  | none => .ub
  | some p =>
    match traverse_node b n.m_fdt_header (pfAction b n.m_fdt_header) fuel p
        { m_looked_property := property_name } with
    | .ok _ _ s => .ok s
    | .ub => .ub
    | .out => .out

/-- `FdtNode::get_property`: the finder's `property_content()`. -/
def FdtNode.get_property (b : Blob) (fuel : Nat) (n : FdtNode)
    (property_name : Option Blob) : Res (Option Nat) :=
  match n.run_property_finder b fuel property_name with
  | .ok s => .ok s.m_result
  | .ub => .ub
  | .out => .out

/-- `FdtNode::has_property`: the finder's `is_property_found()`. -/
def FdtNode.has_property (b : Blob) (fuel : Nat) (n : FdtNode)
    (property_name : Option Blob) : Res Bool :=
  match n.run_property_finder b fuel property_name with
  | .ok s => .ok s.m_property_found
  | .ub => .ub
  | .out => .out

/-- The `FDT` constructor (`open` of the specification): reject a base
address that is not 8-byte aligned, then reject a wrong magic; on success
point the inherited `FdtNode` at the header and at the structure block's
first token, otherwise leave both fields null. No failure escapes as an
exception: the function is total and failure is the invalid handle. -/
def fdt_open (b : Blob) (base : Nat) : FdtNode :=
  if base % 8 = 0 then
    if FdtEngine.read_value b base = FDT_MAGIC then
      { m_node_token_start := some (FdtEngine.get_structure_block_ptr b base),
        m_fdt_header := some base }
    else {}
  else {}

/-! ### Specification-side model

The remaining definitions are not part of the embedded code: they model
the wire format of the spec (well-formed trees, their serialization, the
event sequence a walk produces) and restate comparisons in list terms, so
that the claims about whole trees can be stated and proved.
-/

/-- Modelled from the spec's words: a byte count rounded up to the next
4-byte boundary. -/
def roundUp4 (n : Nat) : Nat := 4 * ((n + 3) / 4)

/-- The four bytes of a 32-bit big-endian field. -/
def be32 (n : Nat) : List Nat :=
  [n / 16777216 % 256, n / 65536 % 256, n / 256 % 256, n % 256]

/-- The bytes `l` lie at position `p` of blob `b`. -/
def serializedAt (b : Blob) (p : Nat) (l : List Nat) : Prop :=
  ∀ i, i < l.length → byteAt b (p + i) = l.getD i 0

instance (b : Blob) (p : Nat) (l : List Nat) : Decidable (serializedAt b p l) :=
  decidable_of_iff (∀ i, i < l.length → byteAt b (p + i) = l.getD i 0) Iff.rfl

/-- The null-terminated byte string `nm` lies at address `a` of blob `b`. -/
def hasName (b : Blob) (a : Nat) (nm : List Nat) : Prop :=
  (∀ i, i < nm.length → byteAt b (a + i) = nm.getD i 0) ∧
    byteAt b (a + nm.length) = 0

instance (b : Blob) (a : Nat) (nm : List Nat) : Decidable (hasName b a nm) :=
  decidable_of_iff
    ((∀ i, i < nm.length → byteAt b (a + i) = nm.getD i 0) ∧
      byteAt b (a + nm.length) = 0) Iff.rfl

/-- A well-formed name: bytes that are neither 0 nor out of byte range. -/
def wfName (nm : List Nat) : Prop := ∀ c ∈ nm, 0 < c ∧ c < 256

instance (nm : List Nat) : Decidable (wfName nm) :=
  decidable_of_iff (∀ c ∈ nm, 0 < c ∧ c < 256) Iff.rfl

/-- Index of the first `'@'` (byte 64) of a name, the spec's "found by
scanning for the first `@`". -/
def firstAt : List Nat → Option Nat
  | [] => none
  | c :: cs => if c = 64 then some 0 else (firstAt cs).map (· + 1)

/-- Modelled from the spec's words for `NodeFinder` matching: with a unit
address, split the encountered name `nm` at its first `@`, match the
address suffix exactly and the prefix of the target up to the `@`'s index;
without one, exact full-string equality. -/
def specNameMatches (nm tgt : List Nat) (u : Option (List Nat)) : Bool :=
  match u with
  | none => nm == tgt
  | some ua =>
    match firstAt nm with
    | none => false
    | some k =>
      decide (∀ i, i < k → nm.getD i 0 = tgt.getD i 0) && (nm.drop (k + 1) == ua)

/-- One element of a node's body in the tree model: a property (string
block offset and raw value bytes), a NOP, or a child node. -/
inductive Entry where
  | nop : Entry
  | prop (nameoff : Nat) (value : List Nat) : Entry
  | node (name : List Nat) (entries : List Entry) : Entry

/-- Padded size of a node's name field (name, terminator, zero padding). -/
def nameRegion (nm : List Nat) : Nat := roundUp4 (nm.length + 1)

/-- Byte size of serialized entry lists (tags included). -/
def entriesSize : List Entry → Nat
  | [] => 0
  | .nop :: es => 4 + entriesSize es
  | .prop _ v :: es => 12 + roundUp4 v.length + entriesSize es
  | .node nm ces :: es => (8 + nameRegion nm + entriesSize ces) + entriesSize es

/-- Byte size of one serialized node. -/
def nodeSize (nm : List Nat) (es : List Entry) : Nat :=
  8 + nameRegion nm + entriesSize es

/-- Serialization of entry lists into structure-block bytes. -/
def serializeEntries : List Entry → List Nat
  | [] => []
  | .nop :: es => be32 FDT_NOP ++ serializeEntries es
  | .prop no v :: es =>
      be32 FDT_PROP ++ be32 v.length ++ be32 no ++ v ++
        List.replicate (roundUp4 v.length - v.length) 0 ++ serializeEntries es
  | .node nm ces :: es =>
      (be32 FDT_BEGIN_NODE ++ nm ++ List.replicate (nameRegion nm - nm.length) 0 ++
        serializeEntries ces ++ be32 FDT_END_NODE) ++ serializeEntries es

/-- Serialization of one node (BEGIN_NODE, padded name, body, END_NODE). -/
def serializeNode (nm : List Nat) (es : List Entry) : List Nat :=
  be32 FDT_BEGIN_NODE ++ nm ++ List.replicate (nameRegion nm - nm.length) 0 ++
    serializeEntries es ++ be32 FDT_END_NODE

/-- Well-formedness of entry lists: property offsets and lengths fit in 32
bits, value bytes are bytes, names are well formed. -/
def wfEntriesB : List Entry → Bool
  | [] => true
  | .nop :: es => wfEntriesB es
  | .prop no v :: es =>
      decide (no < 4294967296) && decide (v.length < 4294967296) &&
        v.all (fun c => decide (c < 256)) && wfEntriesB es
  | .node nm ces :: es =>
      nm.all (fun c => decide (0 < c) && decide (c < 256)) && wfEntriesB ces &&
        wfEntriesB es

/-- The events a traversal fires, with the token position of each and the
payload the blob holds there. -/
inductive Ev where
  | evBegin (pos : Nat) (name : List Nat)
  | evEnd (pos : Nat)
  | evProp (pos : Nat) (nameoff : Nat) (len : Nat)
  | evNop (pos : Nat)
deriving DecidableEq

/-- Event sequence of a serialized entry list starting at position `p`
(document order: depth first, pre order). -/
def entriesEvents : List Entry → Nat → List Ev
  | [], _ => []
  | .nop :: es, p => .evNop p :: entriesEvents es (p + 4)
  | .prop no v :: es, p =>
      .evProp p no v.length :: entriesEvents es (p + 12 + roundUp4 v.length)
  | .node nm ces :: es, p =>
      (.evBegin p nm :: (entriesEvents ces (p + 4 + nameRegion nm) ++
          [.evEnd (p + 4 + nameRegion nm + entriesSize ces)])) ++
        entriesEvents es (p + 8 + nameRegion nm + entriesSize ces)

/-- Event sequence of one node at position `p`. -/
def nodeEvents (nm : List Nat) (es : List Entry) (p : Nat) : List Ev :=
  .evBegin p nm :: (entriesEvents es (p + 4 + nameRegion nm) ++
    [.evEnd (p + 4 + nameRegion nm + entriesSize es)])

/-- Fuel that suffices to walk an entry list (generous upper bound). -/
def entriesFuel : List Entry → Nat
  | [] => 2
  | .nop :: es => 2 + entriesFuel es
  | .prop _ _ :: es => 2 + entriesFuel es
  | .node _ ces :: es => 3 + entriesFuel ces + entriesFuel es

/-- Dispatch one event to the matching hook of an action. -/
def applyEv {σ : Type} (act : TAction σ) : Ev → σ → Option σ
  | .evBegin p _, s => act.on_begin p s
  | .evEnd p, s => act.on_end p s
  | .evProp p _ _, s => act.on_prop p s
  | .evNop p, s => act.on_nop p s

/-- Run an action over an event list, checking satisfaction before each
event (the walk stops — state unchanged — once the action is satisfied);
`none` means a hook hit undefined behaviour. -/
def runEvs {σ : Type} (act : TAction σ) : List Ev → σ → Option σ
  | [], s => some s
  | ev :: evs, s =>
    if act.satisfied s then some s
    else match applyEv act ev s with
      | none => none
      | some s' => runEvs act evs s'

/-- The nodes of a subtree in traversal order: position and name of the
node the handle points at, then every descendant, depth first, pre order. -/
def nodeList (nm : List Nat) (es : List Entry) (p : Nat) : List (Nat × List Nat) :=
  (nodeEvents nm es p).filterMap (fun ev => match ev with
    | .evBegin q n => some (q, n)
    | _ => none)

/-- The properties of a subtree in traversal order: PROP token position,
name offset, and value length. -/
def propList (nm : List Nat) (es : List Entry) (p : Nat) : List (Nat × Nat × Nat) :=
  (nodeEvents nm es p).filterMap (fun ev => match ev with
    | .evProp q no len => some (q, no, len)
    | _ => none)

/-- What the blob holds at an event's position: begin events carry the
node name that lies after the token, property events carry the decoded
descriptor fields. -/
def evWf (b : Blob) : Ev → Prop
  | .evBegin q nm => hasName b (q + 4) nm ∧ wfName nm
  | .evProp q no len =>
      FdtEngine.read_value b (q + 4) = len ∧ FdtEngine.read_value b (q + 8) = no
  | _ => True

/-- Simulation statement for the traversal loop positioned at a serialized
entry list followed by the node's END_NODE (and, when the walk started at
the structure block's first token, by the terminal END): the loop's result
is the event run's result — `ub` when a hook hits undefined behaviour,
otherwise ALL_OK with the event run's final state; when the action never
became satisfied the final token pointer sits right after the END_NODE
token (equally: at the terminal END token). -/
def LoopSim (b : Blob) (h : Nat) {σ : Type} (act : TAction σ) (fuel : Nat)
    (es : List Entry) (start p : Nat) (s : σ) : Prop :=
  (runEvs act (entriesEvents es p ++ [Ev.evEnd (p + entriesSize es)]) s = none →
    traverse_loop b (some h) act fuel start p s = .ub) ∧
  (∀ s', runEvs act (entriesEvents es p ++ [Ev.evEnd (p + entriesSize es)]) s =
      some s' →
    ∃ q, traverse_loop b (some h) act fuel start p s = .ok ALL_OK q s' ∧
      (act.satisfied s' = false → q = p + entriesSize es + 4))

/-- Simulation statement for `traverse_node` on a serialized node: firing
the begin hook then running the remaining events decides the outcome, and
an unsatisfied action leaves the token pointer right after the node. -/
def NodeSim (b : Blob) (h : Nat) {σ : Type} (act : TAction σ) (fuel : Nat)
    (nm : List Nat) (es : List Entry) (p : Nat) (s : σ) : Prop :=
  (act.on_begin p s = none → traverse_node b (some h) act fuel p s = .ub) ∧
  (∀ s1, act.on_begin p s = some s1 →
    (runEvs act (entriesEvents es (p + 4 + nameRegion nm) ++
        [Ev.evEnd (p + 4 + nameRegion nm + entriesSize es)]) s1 = none →
      traverse_node b (some h) act fuel p s = .ub) ∧
    (∀ s', runEvs act (entriesEvents es (p + 4 + nameRegion nm) ++
        [Ev.evEnd (p + 4 + nameRegion nm + entriesSize es)]) s1 = some s' →
      ∃ q, traverse_node b (some h) act fuel p s = .ok ALL_OK q s' ∧
        (act.satisfied s' = false → q = p + nodeSize nm es)))

/-- The two legal placements of a handle's node: a nested node (strictly
after the structure block's first token), or the root node (at it, with
the terminal END following). -/
def NodePlacement (b : Blob) (h : Nat) (nm : List Nat) (es : List Entry)
    (p : Nat) : Prop :=
  (FdtEngine.get_structure_block_ptr b h < p ∧
    serializedAt b p (serializeNode nm es)) ∨
  (FdtEngine.get_structure_block_ptr b h = p ∧
    serializedAt b p (serializeNode nm es ++ be32 FDT_END))

instance (b : Blob) (h : Nat) (nm : List Nat) (es : List Entry) (p : Nat) :
    Decidable (NodePlacement b h nm es p) :=
  decidable_of_iff ((FdtEngine.get_structure_block_ptr b h < p ∧
      serializedAt b p (serializeNode nm es)) ∨
    (FdtEngine.get_structure_block_ptr b h = p ∧
      serializedAt b p (serializeNode nm es ++ be32 FDT_END))) Iff.rfl

-- Name byte lists used by the concrete claims: ASCII "foo", "1000",
-- "foo@1000", "foobar@1000", "foo@10001", "fo@1000" (64 is the '@' byte).

def nmFoo : List Nat := [102, 111, 111]

def nmU1000 : List Nat := [49, 48, 48, 48]

def nmFooAt1000 : List Nat := [102, 111, 111, 64, 49, 48, 48, 48]

def nmFoobarAt1000 : List Nat := [102, 111, 111, 98, 97, 114, 64, 49, 48, 48, 48]

def nmFooAt10001 : List Nat := [102, 111, 111, 64, 49, 48, 48, 48, 49]

def nmFoAt1000 : List Nat := [102, 111, 64, 49, 48, 48, 48]

/-- A minimal blob: 40-byte header (structure block at offset 40, string
block at its end, offset 72), then a root node containing one child node
named `fo@1000` and nothing else. -/
def exBlob2 : Blob :=
  be32 FDT_MAGIC ++ be32 72 ++ be32 40 ++ be32 72 ++ be32 0 ++ be32 17 ++
    be32 16 ++ be32 0 ++ be32 0 ++ be32 32 ++
    (be32 FDT_BEGIN_NODE ++ [0, 0, 0, 0] ++
      (be32 FDT_BEGIN_NODE ++ nmFoAt1000 ++ [0]) ++
      be32 FDT_END_NODE ++ be32 FDT_END_NODE ++ be32 FDT_END)

/-- A malformed blob: the structure block (offset 40) starts with an
END_NODE token, followed by END and by a tag (7) that is no token at all. -/
def exBlob3 : Blob :=
  be32 FDT_MAGIC ++ be32 52 ++ be32 40 ++ be32 52 ++ be32 0 ++ be32 17 ++
    be32 16 ++ be32 0 ++ be32 0 ++ be32 12 ++
    (be32 FDT_END_NODE ++ be32 FDT_END ++ be32 7)

-- Single-token blobs exercising each advance rule of `move_to_next_token`
-- at every rounding boundary: an empty name, a name of 3 bytes
-- (name+terminator exactly one word) and of 4 bytes (one byte over), and
-- properties of length 0, 4 (exact multiple of 4) and 5 (one byte over).

def bBeginEmpty : Blob := be32 FDT_BEGIN_NODE ++ [0, 0, 0, 0]

def bBeginAbc : Blob := be32 FDT_BEGIN_NODE ++ [97, 98, 99, 0]

def bBeginAbcd : Blob := be32 FDT_BEGIN_NODE ++ [97, 98, 99, 100, 0, 0, 0, 0]

def bProp0 : Blob := be32 FDT_PROP ++ be32 0 ++ be32 0

def bProp4 : Blob := be32 FDT_PROP ++ be32 4 ++ be32 0 ++ [1, 2, 3, 4]

def bProp5 : Blob := be32 FDT_PROP ++ be32 5 ++ be32 0 ++ [1, 2, 3, 4, 5, 0, 0, 0]

def bEndNode : Blob := be32 FDT_END_NODE

def bNop : Blob := be32 FDT_NOP

def bEnd : Blob := be32 FDT_END

-- A richer concrete tree for the property and whole-subtree claims:
-- root "" holds property "compatible" (5-byte value), zero-length
-- property "empty", childless children "foobar@1000" and "foo@10001",
-- and child "foo@1000" whose own child "grand" holds property
-- "deepprop" (4-byte value). The string block is
-- "compatible\0empty\0deepprop\0" (offsets 0, 11, 17).

def nmCompatible : List Nat := [99, 111, 109, 112, 97, 116, 105, 98, 108, 101]

def nmEmptyProp : List Nat := [101, 109, 112, 116, 121]

def nmDeepprop : List Nat := [100, 101, 101, 112, 112, 114, 111, 112]

def nmGrand : List Nat := [103, 114, 97, 110, 100]

def valHello : List Nat := [104, 101, 108, 108, 111]

def fooSubEs : List Entry := [.node nmGrand [.prop 17 [1, 2, 3, 4]]]

def rootEs : List Entry :=
  [.prop 0 valHello, .prop 11 [], .node nmFoobarAt1000 [],
   .node nmFooAt10001 [], .node nmFooAt1000 fooSubEs]

def stringsBlk : List Nat :=
  nmCompatible ++ [0] ++ nmEmptyProp ++ [0] ++ nmDeepprop ++ [0]

/-- A 206-byte blob: 40-byte header (structure block at offset 40, size
140; string block at offset 180, size 26), the serialized `rootEs` tree,
and the string block. -/
def exBlob1 : Blob :=
  be32 FDT_MAGIC ++ be32 206 ++ be32 40 ++ be32 180 ++ be32 0 ++ be32 17 ++
    be32 16 ++ be32 0 ++ be32 26 ++ be32 140 ++
    (serializeNode [] rootEs ++ be32 FDT_END) ++ stringsBlk

/-- Names of `exBlob1`'s properties, by string-block offset. -/
def pnEx : Nat × Nat × Nat → List Nat := fun x =>
  if x.2.1 = 0 then nmCompatible
  else if x.2.1 = 11 then nmEmptyProp
  else nmDeepprop

/-! ### Supporting lemmas: bit arithmetic of `read_value` -/

theorem byteAt_lt (b : Blob) (a : Nat) : byteAt b a < 256 :=
  Nat.mod_lt _ (by norm_num)

theorem shiftRight_or_distrib (a b k : Nat) :
    (a ||| b) >>> k = (a >>> k) ||| (b >>> k) := by
  apply Nat.eq_of_testBit_eq
  intro i
  simp [Nat.testBit_or, Nat.testBit_shiftRight]

theorem and_mask_shiftLeft (v m k : Nat) :
    v &&& (m <<< k) = ((v >>> k) &&& m) <<< k := by
  apply Nat.eq_of_testBit_eq
  intro i
  simp only [Nat.testBit_and, Nat.testBit_shiftLeft, Nat.testBit_shiftRight]
  by_cases h : k ≤ i
  · have : k + (i - k) = i := by omega
    simp [h, this, Bool.and_comm, Bool.and_left_comm]
  · simp [h]

theorem or_eq_add_pow (k a b : Nat) (ha : a % 2 ^ k = 0) (hb : b < 2 ^ k) :
    a ||| b = a + b := by
  have h1 : (a ||| b) % 2 ^ k = b := by
    rw [← Nat.and_pow_two_sub_one_eq_mod, Nat.and_distrib_right,
        Nat.and_pow_two_sub_one_eq_mod, Nat.and_pow_two_sub_one_eq_mod, ha,
        Nat.mod_eq_of_lt hb, Nat.zero_or]
  have h2 : (a ||| b) / 2 ^ k = a / 2 ^ k := by
    rw [← Nat.shiftRight_eq_div_pow, shiftRight_or_distrib,
        Nat.shiftRight_eq_div_pow, Nat.shiftRight_eq_div_pow,
        Nat.div_eq_of_lt hb, Nat.or_zero]
  have ha' : 2 ^ k * (a / 2 ^ k) = a := by
    conv_rhs => rw [← Nat.div_add_mod a (2 ^ k)]
    rw [ha, Nat.add_zero]
  calc a ||| b = 2 ^ k * ((a ||| b) / 2 ^ k) + (a ||| b) % 2 ^ k :=
        (Nat.div_add_mod _ _).symm
    _ = 2 ^ k * (a / 2 ^ k) + b := by rw [h1, h2]
    _ = a + b := by rw [ha']

/-- The byte-swap expression of `read_value`, applied to the value of the
little-endian wide load of four bytes, yields the big-endian
interpretation of those bytes. -/
theorem swap_formula (c0 c1 c2 c3 : Nat) (h0 : c0 < 256) (h1 : c1 < 256)
    (h2 : c2 < 256) (h3 : c3 < 256) :
    (((c0 + c1 * 256 + c2 * 65536 + c3 * 16777216) &&& 0xFF) <<< 24) |||
      (((c0 + c1 * 256 + c2 * 65536 + c3 * 16777216) &&& 0xFF00) <<< 8) |||
      (((c0 + c1 * 256 + c2 * 65536 + c3 * 16777216) &&& 0xFF0000) >>> 8) |||
      (((c0 + c1 * 256 + c2 * 65536 + c3 * 16777216) &&& 0xFF000000) >>> 24) =
      c0 * 16777216 + c1 * 65536 + c2 * 256 + c3 := by
  set v := c0 + c1 * 256 + c2 * 65536 + c3 * 16777216 with hv
  have hmask : ∀ x : Nat, x &&& 0xFF = x % 256 := by
    intro x
    have h : (0xFF : Nat) = 2 ^ 8 - 1 := by norm_num
    rw [h, Nat.and_pow_two_sub_one_eq_mod]
  have e1 : v &&& 0xFF = c0 := by rw [hmask]; omega
  have e2 : v &&& 0xFF00 = c1 * 256 := by
    have hm : (0xFF00 : Nat) = 0xFF <<< 8 := by decide
    rw [hm, and_mask_shiftLeft, hmask, Nat.shiftRight_eq_div_pow, Nat.shiftLeft_eq]
    norm_num
    omega
  have e3 : v &&& 0xFF0000 = c2 * 65536 := by
    have hm : (0xFF0000 : Nat) = 0xFF <<< 16 := by decide
    rw [hm, and_mask_shiftLeft, hmask, Nat.shiftRight_eq_div_pow, Nat.shiftLeft_eq]
    norm_num
    omega
  have e4 : v &&& 0xFF000000 = c3 * 16777216 := by
    have hm : (0xFF000000 : Nat) = 0xFF <<< 24 := by decide
    rw [hm, and_mask_shiftLeft, hmask, Nat.shiftRight_eq_div_pow, Nat.shiftLeft_eq]
    norm_num
    omega
  rw [e1, e2, e3, e4, Nat.shiftLeft_eq, Nat.shiftLeft_eq, Nat.shiftRight_eq_div_pow,
      Nat.shiftRight_eq_div_pow]
  norm_num
  have g1 : c0 * 16777216 ||| c1 * 65536 = c0 * 16777216 + c1 * 65536 := by
    apply or_eq_add_pow 24
    · norm_num [Nat.mul_mod_left]
    · norm_num
      omega
  have g2 : c0 * 16777216 + c1 * 65536 ||| c2 * 256 =
      c0 * 16777216 + c1 * 65536 + c2 * 256 := by
    apply or_eq_add_pow 16
    · norm_num
      omega
    · norm_num
      omega
  have g3 : c0 * 16777216 + c1 * 65536 + c2 * 256 ||| c3 =
      c0 * 16777216 + c1 * 65536 + c2 * 256 + c3 := by
    apply or_eq_add_pow 8
    · norm_num
      omega
    · norm_num
      omega
  have n1 : c1 * 256 * 256 = c1 * 65536 := by ring
  have n2 : c2 * 65536 / 256 = c2 * 256 := by omega
  rw [n1, n2, g1, g2, g3]

/-- Value-wise, the reader always returns the big-endian field: the
little-endian compilation (wide load, then byte swap) agrees with the
big-endian compilation (raw wide load). -/
theorem read_value_eq_load_be (b : Blob) (a : Nat) :
    FdtEngine.read_value b a = FdtEngine.load_be b a := by
  have h := swap_formula (byteAt b a) (byteAt b (a + 1)) (byteAt b (a + 2))
    (byteAt b (a + 3)) (byteAt_lt b a) (byteAt_lt b (a + 1)) (byteAt_lt b (a + 2))
    (byteAt_lt b (a + 3))
  simpa [FdtEngine.read_value, FdtEngine.load_le, FdtEngine.load_be] using h

/-! ### Token-advance characterization -/

theorem get_aligned_eq_roundUp4 (a n : Nat) :
    FdtEngine.get_aligned_after_offset a n = a + roundUp4 n := by
  unfold FdtEngine.get_aligned_after_offset roundUp4
  split <;> omega

theorem roundUp4_add_eight (n : Nat) : roundUp4 (8 + n) = 8 + roundUp4 n := by
  unfold roundUp4
  omega

/-! ### Supporting lemmas: the string utilities, characterized by the
byte strings they scan -/

theorem byteAt_eq_zero_of_ge (b : Blob) (x : Nat) (h : b.length ≤ x) :
    byteAt b x = 0 := by
  unfold byteAt
  rw [List.getD_eq_default _ _ h]

theorem lt_length_of_byteAt_ne_zero (b : Blob) (x : Nat) (h : byteAt b x ≠ 0) :
    x < b.length := by
  by_contra hge
  exact h (byteAt_eq_zero_of_ge b x (by omega))

theorem wfName_getD (nm : List Nat) (hw : wfName nm) (i : Nat)
    (hi : i < nm.length) : 0 < nm.getD i 0 ∧ nm.getD i 0 < 256 := by
  induction nm generalizing i with
  | nil => simp at hi
  | cons c cs ih =>
    match i with
    | 0 => exact hw c (by simp)
    | i + 1 =>
      have := ih (fun x hx => hw x (by simp [hx])) i (by simpa using hi)
      simpa using this

theorem byteAt_of_wfName (nm : List Nat) (hw : wfName nm) (i : Nat) :
    byteAt nm i = nm.getD i 0 := by
  by_cases hi : i < nm.length
  · have := wfName_getD nm hw i hi
    unfold byteAt
    omega
  · rw [byteAt_eq_zero_of_ge nm i (by omega), List.getD_eq_default _ _ (by omega)]

theorem hasName_byte (b : Blob) (a : Nat) (nm : List Nat) (hn : hasName b a nm)
    (i : Nat) (hi : i ≤ nm.length) : byteAt b (a + i) = nm.getD i 0 := by
  rcases Nat.lt_or_ge i nm.length with h | h
  · exact hn.1 i h
  · have he : i = nm.length := by omega
    subst he
    rw [hn.2, List.getD_eq_default _ _ (by omega)]

theorem hasName_extent (b : Blob) (a : Nat) (nm : List Nat) (hn : hasName b a nm)
    (hw : wfName nm) : nm.length = 0 ∨ a + nm.length ≤ b.length := by
  rcases Nat.eq_zero_or_pos nm.length with h | h
  · exact Or.inl h
  · right
    have hb : byteAt b (a + (nm.length - 1)) = nm.getD (nm.length - 1) 0 :=
      hn.1 _ (by omega)
    have hpos := wfName_getD nm hw (nm.length - 1) (by omega)
    have : a + (nm.length - 1) < b.length := by
      apply lt_length_of_byteAt_ne_zero
      omega
    omega

theorem lists_eq_of_getD_eq (nm : List Nat) (hwn : wfName nm) :
    ∀ tgt : List Nat, wfName tgt → (∀ i, nm.getD i 0 = tgt.getD i 0) → nm = tgt := by
  induction nm with
  | nil =>
    intro tgt hwt h
    match tgt with
    | [] => rfl
    | t :: ts =>
      have := (h 0).symm
      simp [List.getD] at this
      have := hwt t (by simp)
      omega
  | cons c cs ih =>
    intro tgt hwt h
    match tgt with
    | [] =>
      have := h 0
      simp [List.getD] at this
      have := hwn c (by simp)
      omega
    | t :: ts =>
      have h0 := h 0
      simp [List.getD] at h0
      have htl : cs = ts := by
        apply ih (fun x hx => hwn x (by simp [hx])) ts
          (fun x hx => hwt x (by simp [hx]))
        intro i
        simpa [List.getD] using h (i + 1)
      rw [h0, htl]

theorem strlenAux_spec (b : Blob) (L : Nat) : ∀ (a fuel : Nat),
    (∀ i, i < L → byteAt b (a + i) ≠ 0) → byteAt b (a + L) = 0 → L < fuel →
    Utilities.strlenAux b a fuel = L := by
  induction L with
  | zero =>
    intro a fuel hnz h0 hf
    obtain ⟨f, rfl⟩ : ∃ f, fuel = f + 1 := ⟨fuel - 1, by omega⟩
    simp only [Utilities.strlenAux]
    rw [if_pos (by simpa using h0)]
  | succ L ih =>
    intro a fuel hnz h0 hf
    obtain ⟨f, rfl⟩ : ∃ f, fuel = f + 1 := ⟨fuel - 1, by omega⟩
    have hne : byteAt b a ≠ 0 := by simpa using hnz 0 (by omega)
    have ihv : Utilities.strlenAux b (a + 1) f = L := by
      apply ih
      · intro i hi
        have := hnz (i + 1) (by omega)
        have he : a + (i + 1) = a + 1 + i := by omega
        rwa [he] at this
      · have he : a + (L + 1) = a + 1 + L := by omega
        rwa [he] at h0
      · omega
    simp only [Utilities.strlenAux]
    rw [if_neg hne, ihv]

theorem strlen_spec (b : Blob) (a : Nat) (L : Nat)
    (hnz : ∀ i, i < L → byteAt b (a + i) ≠ 0) (h0 : byteAt b (a + L) = 0) :
    Utilities.strlen b a = L := by
  by_cases ha : a ≤ b.length
  · apply strlenAux_spec b L a _ hnz h0
    rcases Nat.eq_zero_or_pos L with h | h
    · omega
    · have := lt_length_of_byteAt_ne_zero b (a + (L - 1)) (hnz (L - 1) (by omega))
      omega
  · have hL : L = 0 := by
      by_contra hc
      have h00 : byteAt b (a + 0) ≠ 0 := hnz 0 (by omega)
      have := lt_length_of_byteAt_ne_zero b (a + 0) h00
      omega
    subst hL
    unfold Utilities.strlen
    have hf : b.length + 1 - a = 0 := by omega
    rw [hf]
    rfl

theorem strcmpAux_spec (b1 b2 : Blob) (j : Nat) : ∀ (a1 a2 fuel : Nat),
    (∀ i, i < j → byteAt b1 (a1 + i) = byteAt b2 (a2 + i) ∧ byteAt b1 (a1 + i) ≠ 0) →
    j < fuel →
    ((byteAt b1 (a1 + j) = 0 ∧ byteAt b2 (a2 + j) = 0 →
        Utilities.strcmpAux b1 b2 a1 a2 fuel = 0) ∧
      (byteAt b1 (a1 + j) < byteAt b2 (a2 + j) →
        Utilities.strcmpAux b1 b2 a1 a2 fuel = -1) ∧
      (byteAt b2 (a2 + j) < byteAt b1 (a1 + j) →
        Utilities.strcmpAux b1 b2 a1 a2 fuel = 1)) := by
  induction j with
  | zero =>
    intro a1 a2 fuel hpre hf
    obtain ⟨f, rfl⟩ : ∃ f, fuel = f + 1 := ⟨fuel - 1, by omega⟩
    simp only [Nat.add_zero]
    refine ⟨fun h => ?_, fun h => ?_, fun h => ?_⟩ <;>
      simp only [Utilities.strcmpAux]
    · rw [if_pos h]
    · rw [if_neg (by omega), if_pos h]
    · rw [if_neg (by omega), if_neg (by omega), if_pos h]
  | succ j ih =>
    intro a1 a2 fuel hpre hf
    obtain ⟨f, rfl⟩ : ∃ f, fuel = f + 1 := ⟨fuel - 1, by omega⟩
    have h0 := hpre 0 (by omega)
    simp only [Nat.add_zero] at h0
    obtain ⟨heq, hne⟩ := h0
    have hpre' : ∀ i, i < j →
        byteAt b1 (a1 + 1 + i) = byteAt b2 (a2 + 1 + i) ∧
          byteAt b1 (a1 + 1 + i) ≠ 0 := by
      intro i hi
      have := hpre (i + 1) (by omega)
      have e1 : a1 + (i + 1) = a1 + 1 + i := by omega
      have e2 : a2 + (i + 1) = a2 + 1 + i := by omega
      rwa [e1, e2] at this
    have ihv := ih (a1 + 1) (a2 + 1) f hpre' (by omega)
    have e1 : a1 + (j + 1) = a1 + 1 + j := by omega
    have e2 : a2 + (j + 1) = a2 + 1 + j := by omega
    rw [e1, e2]
    refine ⟨fun h => ?_, fun h => ?_, fun h => ?_⟩ <;>
      simp only [Utilities.strcmpAux] <;>
      rw [if_neg (by omega), if_neg (by omega), if_neg (by omega)]
    · exact ihv.1 h
    · exact ihv.2.1 h
    · exact ihv.2.2 h

theorem strcmp_eq_zero_iff (b : Blob) (a : Nat) (nm tgt : List Nat)
    (hn : hasName b a nm) (hwn : wfName nm) (hwt : wfName tgt) :
    (Utilities.strcmp b a tgt 0 = 0 ↔ nm = tgt) := by
  have hext := hasName_extent b a nm hn hwn
  constructor
  · intro h
    by_contra hne
    have hex : ∃ i, nm.getD i 0 ≠ tgt.getD i 0 := by
      by_contra hall
      push_neg at hall
      exact hne (lists_eq_of_getD_eq nm hwn tgt hwt hall)
    classical
    have hj := Nat.find_spec hex
    set j := Nat.find hex with hjdef
    have hjmin : ∀ i, i < j → nm.getD i 0 = tgt.getD i 0 := by
      intro i hi
      have := Nat.find_min hex hi
      simpa using this
    have hjle : j ≤ nm.length := by
      by_contra hgt
      push_neg at hgt
      have h1 : nm.getD nm.length 0 = 0 := List.getD_eq_default _ _ (by omega)
      have h2 : tgt.getD nm.length 0 = 0 := by
        rw [← hjmin nm.length hgt, h1]
      have htle : tgt.length ≤ nm.length := by
        by_contra hc
        push_neg at hc
        have := wfName_getD tgt hwt nm.length hc
        omega
      have : nm.getD j 0 = tgt.getD j 0 := by
        rw [List.getD_eq_default _ _ (by omega), List.getD_eq_default _ _ (by omega)]
      exact hj this
    have hb1 : byteAt b (a + j) = nm.getD j 0 := hasName_byte b a nm hn j hjle
    have hb2 : byteAt tgt (0 + j) = tgt.getD j 0 := by
      rw [Nat.zero_add]
      exact byteAt_of_wfName tgt hwt j
    have hpre : ∀ i, i < j →
        byteAt b (a + i) = byteAt tgt (0 + i) ∧ byteAt b (a + i) ≠ 0 := by
      intro i hi
      have hbi : byteAt b (a + i) = nm.getD i 0 := hasName_byte b a nm hn i (by omega)
      have hti : byteAt tgt (0 + i) = tgt.getD i 0 := by
        rw [Nat.zero_add]
        exact byteAt_of_wfName tgt hwt i
      have hipos := wfName_getD nm hwn i (by omega)
      refine ⟨?_, by omega⟩
      rw [hbi, hti, hjmin i hi]
    have hfuel : j < b.length + 1 := by
      rcases hext with h' | h' <;> omega
    have hspec := strcmpAux_spec b tgt j a 0 (b.length + 1) hpre hfuel
    unfold Utilities.strcmp at h
    rcases Nat.lt_trichotomy (byteAt b (a + j)) (byteAt tgt (0 + j)) with hc | hc | hc
    · rw [hspec.2.1 hc] at h
      norm_num at h
    · rw [hb1, hb2] at hc
      exact hj hc
    · rw [hspec.2.2 hc] at h
      norm_num at h
  · intro h
    subst h
    have hpre : ∀ i, i < nm.length →
        byteAt b (a + i) = byteAt nm (0 + i) ∧ byteAt b (a + i) ≠ 0 := by
      intro i hi
      have hbi := hn.1 i hi
      have hti : byteAt nm (0 + i) = nm.getD i 0 := by
        rw [Nat.zero_add]
        exact byteAt_of_wfName nm hwn i
      have hipos := wfName_getD nm hwn i hi
      exact ⟨by rw [hbi, hti], by omega⟩
    have hfuel : nm.length < b.length + 1 := by
      rcases hext with h' | h' <;> omega
    have hspec := strcmpAux_spec b nm nm.length a 0 (b.length + 1) hpre hfuel
    unfold Utilities.strcmp
    apply hspec.1
    constructor
    · exact hn.2
    · rw [Nat.zero_add, byteAt_of_wfName nm hwn, List.getD_eq_default _ _ (by omega)]

theorem strncmp_eq_zero_iff (b1 b2 : Blob) (n : Nat) : ∀ (a1 a2 : Nat),
    (∀ i, i < n → byteAt b1 (a1 + i) ≠ 0) →
    (Utilities.strncmp b1 a1 b2 a2 n = 0 ↔
      ∀ i, i < n → byteAt b1 (a1 + i) = byteAt b2 (a2 + i)) := by
  induction n with
  | zero => intro a1 a2 _; simp [Utilities.strncmp]
  | succ n ih =>
    intro a1 a2 hnz
    have hne : byteAt b1 a1 ≠ 0 := by simpa using hnz 0 (by omega)
    have ihv := ih (a1 + 1) (a2 + 1) (by
      intro i hi
      have := hnz (i + 1) (by omega)
      have e : a1 + (i + 1) = a1 + 1 + i := by omega
      rwa [e] at this)
    simp only [Utilities.strncmp]
    rcases Nat.lt_trichotomy (byteAt b1 a1) (byteAt b2 a2) with hc | hc | hc
    · rw [if_neg (by omega), if_pos hc]
      constructor
      · intro h; norm_num at h
      · intro h
        have := h 0 (by omega)
        simp at this
        omega
    · rw [if_neg (by omega), if_neg (by omega), if_neg (by omega)]
      rw [ihv]
      constructor
      · intro h i hi
        match i with
        | 0 => simpa using hc
        | i + 1 =>
          have := h i (by omega)
          have e1 : a1 + (i + 1) = a1 + 1 + i := by omega
          have e2 : a2 + (i + 1) = a2 + 1 + i := by omega
          rw [e1, e2]
          exact this
      · intro h i hi
        have := h (i + 1) (by omega)
        have e1 : a1 + (i + 1) = a1 + 1 + i := by omega
        have e2 : a2 + (i + 1) = a2 + 1 + i := by omega
        rwa [e1, e2] at this
    · rw [if_neg (by omega), if_neg (by omega), if_pos hc]
      constructor
      · intro h; norm_num at h
      · intro h
        have := h 0 (by omega)
        simp at this
        omega

theorem strchrAux_none (b : Blob) (c : Nat) : ∀ (fuel a L : Nat),
    (∀ i, i < L → byteAt b (a + i) ≠ 0 ∧ byteAt b (a + i) ≠ c) →
    byteAt b (a + L) = 0 → Utilities.strchrAux b c a fuel = none := by
  intro fuel
  induction fuel with
  | zero => intro a L _ _; rfl
  | succ f ih =>
    intro a L hmiss h0
    simp only [Utilities.strchrAux]
    by_cases hz : byteAt b a = 0
    · rw [if_pos hz]
    · have hL : L ≠ 0 := fun hc => hz (by simpa [hc] using h0)
      have h00 := hmiss 0 (by omega)
      simp only [Nat.add_zero] at h00
      rw [if_neg hz, if_neg h00.2]
      apply ih (a + 1) (L - 1)
      · intro i hi
        have := hmiss (i + 1) (by omega)
        have e : a + (i + 1) = a + 1 + i := by omega
        rwa [e] at this
      · have e : a + L = a + 1 + (L - 1) := by omega
        rwa [e] at h0

theorem strchrAux_found (b : Blob) (c : Nat) (j : Nat) : ∀ (a fuel : Nat),
    (∀ i, i < j → byteAt b (a + i) ≠ 0 ∧ byteAt b (a + i) ≠ c) →
    byteAt b (a + j) = c → c ≠ 0 → j < fuel →
    Utilities.strchrAux b c a fuel = some (a + j) := by
  induction j with
  | zero =>
    intro a fuel _ hc hc0 hf
    obtain ⟨f, rfl⟩ : ∃ f, fuel = f + 1 := ⟨fuel - 1, by omega⟩
    simp only [Nat.add_zero] at hc
    simp only [Utilities.strchrAux]
    rw [if_neg (by omega), if_pos hc, Nat.add_zero]
  | succ j ih =>
    intro a fuel hmiss hc hc0 hf
    obtain ⟨f, rfl⟩ : ∃ f, fuel = f + 1 := ⟨fuel - 1, by omega⟩
    have h00 := hmiss 0 (by omega)
    simp only [Nat.add_zero] at h00
    simp only [Utilities.strchrAux]
    rw [if_neg h00.1, if_neg h00.2]
    have e : a + (j + 1) = a + 1 + j := by omega
    rw [e]
    apply ih
    · intro i hi
      have := hmiss (i + 1) (by omega)
      have e' : a + (i + 1) = a + 1 + i := by omega
      rwa [e'] at this
    · rwa [e] at hc
    · exact hc0
    · omega

theorem firstAt_some (nm : List Nat) : ∀ (k : Nat), firstAt nm = some k →
    k < nm.length ∧ nm.getD k 0 = 64 ∧ ∀ i, i < k → nm.getD i 0 ≠ 64 := by
  induction nm with
  | nil => intro k h; simp [firstAt] at h
  | cons c cs ih =>
    intro k h
    simp only [firstAt] at h
    by_cases hc : c = 64
    · rw [if_pos hc] at h
      obtain rfl : k = 0 := by simpa using h.symm
      refine ⟨by simp, by simpa [List.getD] using hc, by omega⟩
    · rw [if_neg hc] at h
      match hk : firstAt cs with
      | none => rw [hk] at h; simp at h
      | some k' =>
        rw [hk] at h
        simp at h
        obtain rfl : k = k' + 1 := h.symm
        obtain ⟨h1, h2, h3⟩ := ih k' hk
        refine ⟨by simpa using h1, by simpa [List.getD] using h2, ?_⟩
        intro i hi
        match i with
        | 0 => simpa [List.getD] using hc
        | i + 1 =>
          have := h3 i (by omega)
          simpa [List.getD] using this

theorem firstAt_none (nm : List Nat) (h : firstAt nm = none) :
    ∀ i, i < nm.length → nm.getD i 0 ≠ 64 := by
  induction nm with
  | nil => intro i hi; simp at hi
  | cons c cs ih =>
    intro i hi
    simp only [firstAt] at h
    by_cases hc : c = 64
    · rw [if_pos hc] at h; simp at h
    · rw [if_neg hc] at h
      match i with
      | 0 => simpa [List.getD] using hc
      | i + 1 =>
        match hk : firstAt cs with
        | some k' => rw [hk] at h; simp at h
        | none =>
          have := ih hk i (by simpa using hi)
          simpa [List.getD] using this

theorem getD_drop (l : List Nat) (n i : Nat) :
    (l.drop n).getD i 0 = l.getD (n + i) 0 := by
  induction l generalizing n with
  | nil => simp
  | cons c cs ih =>
    match n with
    | 0 => simp
    | n + 1 =>
      have e : n + 1 + i = (n + i) + 1 := by omega
      simp only [List.drop_succ_cons, e, List.getD_cons_succ]
      exact ih n

theorem hasName_drop (b : Blob) (a : Nat) (nm : List Nat) (k : Nat)
    (hn : hasName b a nm) (hk : k ≤ nm.length) :
    hasName b (a + k) (nm.drop k) := by
  have hlen : (nm.drop k).length = nm.length - k := List.length_drop k nm
  constructor
  · intro i hi
    have := hn.1 (k + i) (by omega)
    have e : a + (k + i) = a + k + i := by omega
    rw [e] at this
    rw [this, getD_drop]
  · rw [hlen]
    have e : a + k + (nm.length - k) = a + nm.length := by omega
    rw [e]
    exact hn.2

theorem wfName_drop (nm : List Nat) (k : Nat) (hw : wfName nm) :
    wfName (nm.drop k) :=
  fun c hc => hw c (List.drop_subset _ _ hc)

/-- `NodeFinder::is_same_as`, characterized on the name the blob holds at
the compared address: it computes exactly the spec-side list matcher. -/
theorem is_same_as_spec (b : Blob) (a : Nat) (nm tgt : List Nat)
    (u : Option (List Nat)) (hn : hasName b a nm) (hwn : wfName nm)
    (hwt : wfName tgt) (hwu : ∀ x, u = some x → wfName x) :
    NodeFinder.is_same_as b (some tgt) u a = specNameMatches nm tgt u := by
  match u with
  | none =>
    simp only [NodeFinder.is_same_as, specNameMatches]
    rw [Bool.eq_iff_iff]
    simp [strcmp_eq_zero_iff b a nm tgt hn hwn hwt]
  | some ua =>
    have hwua : wfName ua := hwu ua rfl
    simp only [NodeFinder.is_same_as, specNameMatches]
    match hfa : firstAt nm with
    | none =>
      have hmiss := firstAt_none nm hfa
      have hchr : Utilities.strchr b a 64 = none := by
        unfold Utilities.strchr
        apply strchrAux_none b 64 _ a nm.length
        · intro i hi
          have hb := hn.1 i hi
          have := wfName_getD nm hwn i hi
          have := hmiss i hi
          omega
        · exact hn.2
      rw [hchr]
    | some k =>
      obtain ⟨hk, hk64, hkmin⟩ := firstAt_some nm k hfa
      have hchr : Utilities.strchr b a 64 = some (a + k) := by
        unfold Utilities.strchr
        apply strchrAux_found
        · intro i hi
          have hb := hn.1 i (by omega)
          have := wfName_getD nm hwn i (by omega)
          have := hkmin i hi
          omega
        · rw [hasName_byte b a nm hn k (by omega), hk64]
        · omega
        · have hb := hn.1 k hk
          have : byteAt b (a + k) ≠ 0 := by
            rw [hb, hk64]; omega
          have := lt_length_of_byteAt_ne_zero b (a + k) this
          omega
      rw [hchr]
      simp only [Nat.add_sub_cancel_left]
      have hncmp : (Utilities.strncmp b a tgt 0 k = 0) ↔
          ∀ i, i < k → nm.getD i 0 = tgt.getD i 0 := by
        rw [strncmp_eq_zero_iff b tgt k a 0 (by
          intro i hi
          have hb := hn.1 i (by omega)
          have := wfName_getD nm hwn i (by omega)
          omega)]
        constructor
        · intro h i hi
          have := h i hi
          rw [hasName_byte b a nm hn i (by omega), Nat.zero_add,
            byteAt_of_wfName tgt hwt i] at this
          exact this
        · intro h i hi
          rw [hasName_byte b a nm hn i (by omega), Nat.zero_add,
            byteAt_of_wfName tgt hwt i]
          exact h i hi
      have hscmp : (Utilities.strcmp b (a + k + 1) ua 0 = 0) ↔
          nm.drop (k + 1) = ua := by
        have hdrop : hasName b (a + (k + 1)) (nm.drop (k + 1)) :=
          hasName_drop b a nm (k + 1) hn (by omega)
        have e : a + (k + 1) = a + k + 1 := by omega
        rw [e] at hdrop
        exact strcmp_eq_zero_iff b (a + k + 1) _ ua hdrop
          (wfName_drop nm (k + 1) hwn) hwua
      by_cases hpre : ∀ i, i < k → nm.getD i 0 = tgt.getD i 0
      · rw [if_pos (hncmp.mpr hpre)]
        simp only [decide_eq_true (by exact hpre), Bool.true_and]
        rw [Bool.eq_iff_iff]
        simp [hscmp]
      · rw [if_neg (fun hc => hpre (hncmp.mp hc)), decide_eq_false hpre,
          Bool.false_and]

/-! ### Supporting lemmas: serialized bytes, sizes, and token stepping -/

theorem getD_append_left (xs ys : List Nat) (i : Nat) (h : i < xs.length) :
    (xs ++ ys).getD i 0 = xs.getD i 0 := by
  simp [List.getD_eq_getElem?_getD, List.getElem?_append, h]

theorem getD_append_right (xs ys : List Nat) (i : Nat) :
    (xs ++ ys).getD (xs.length + i) 0 = ys.getD i 0 := by
  rw [List.getD_eq_getElem?_getD, List.getD_eq_getElem?_getD,
    List.getElem?_append_right (by omega)]
  simp

theorem getD_replicate_zero (n i : Nat) :
    (List.replicate n (0 : Nat)).getD i 0 = 0 := by
  rw [List.getD_eq_getElem?_getD, List.getElem?_replicate]
  split <;> simp

theorem serializedAt_append (b : Blob) (p : Nat) (xs ys : List Nat)
    (h : serializedAt b p (xs ++ ys)) :
    serializedAt b p xs ∧ serializedAt b (p + xs.length) ys := by
  constructor
  · intro i hi
    have := h i (by simp; omega)
    rwa [getD_append_left xs ys i hi] at this
  · intro i hi
    have := h (xs.length + i) (by simp; omega)
    rw [getD_append_right xs ys i] at this
    have e : p + (xs.length + i) = p + xs.length + i := by omega
    rwa [e] at this

theorem be32_length (n : Nat) : (be32 n).length = 4 := rfl

theorem read_value_of_be32 (b : Blob) (p n : Nat) (h : serializedAt b p (be32 n))
    (hn : n < 4294967296) : FdtEngine.read_value b p = n := by
  have h0 := h 0 (by simp [be32])
  have h1 := h 1 (by simp [be32])
  have h2 := h 2 (by simp [be32])
  have h3 := h 3 (by simp [be32])
  simp only [be32, List.getD_cons_zero, List.getD_cons_succ, Nat.add_zero] at h0 h1 h2 h3
  rw [read_value_eq_load_be]
  unfold FdtEngine.load_be
  rw [h0, h1, h2, h3]
  omega

theorem move_of_end_node (b : Blob) (a : Nat)
    (h : FdtEngine.read_value b a = FDT_END_NODE) :
    FdtEngine.move_to_next_token b a = a + 4 := by
  unfold FdtEngine.move_to_next_token
  rw [h]
  norm_num [FDT_BEGIN_NODE, FDT_END_NODE]

theorem move_of_nop (b : Blob) (a : Nat)
    (h : FdtEngine.read_value b a = FDT_NOP) :
    FdtEngine.move_to_next_token b a = a + 4 := by
  unfold FdtEngine.move_to_next_token
  rw [h]
  norm_num [FDT_BEGIN_NODE, FDT_END_NODE, FDT_PROP, FDT_NOP]

theorem move_of_prop (b : Blob) (a : Nat)
    (h : FdtEngine.read_value b a = FDT_PROP) :
    FdtEngine.move_to_next_token b a =
      a + 12 + roundUp4 (FdtEngine.read_value b (a + 4)) := by
  unfold FdtEngine.move_to_next_token
  rw [h]
  norm_num [FDT_BEGIN_NODE, FDT_END_NODE, FDT_PROP]
  rw [get_aligned_eq_roundUp4, roundUp4_add_eight]
  omega

theorem move_of_begin_name (b : Blob) (a L : Nat)
    (htok : FdtEngine.read_value b a = FDT_BEGIN_NODE)
    (hlen : Utilities.strlen b (a + 4) = L) :
    FdtEngine.move_to_next_token b a = a + 4 + roundUp4 (L + 1) := by
  simp only [FdtEngine.move_to_next_token]
  rw [htok, if_pos rfl, hlen]
  match L with
  | 0 => rw [if_neg (by omega : ¬(0 : Nat) ≠ 0)]; simp [roundUp4]
  | L + 1 => rw [if_pos (by omega : (L + 1 : Nat) ≠ 0), get_aligned_eq_roundUp4]

theorem serializeNode_parts (b : Blob) (p : Nat) (nm : List Nat) (es : List Entry)
    (hser : serializedAt b p (serializeNode nm es)) (hw : wfName nm) :
    FdtEngine.read_value b p = FDT_BEGIN_NODE ∧
    hasName b (p + 4) nm ∧
    serializedAt b (p + 4 + nameRegion nm)
      (serializeEntries es ++ be32 FDT_END_NODE) ∧
    FdtEngine.move_to_next_token b p = p + 4 + nameRegion nm := by
  unfold serializeNode at hser
  simp only [List.append_assoc] at hser
  obtain ⟨h1, hrest⟩ := serializedAt_append b p _ _ hser
  rw [be32_length] at hrest
  obtain ⟨hnm, hrest2⟩ := serializedAt_append b (p + 4) _ _ hrest
  obtain ⟨hpad, hrest3⟩ := serializedAt_append b (p + 4 + nm.length) _ _ hrest2
  rw [List.length_replicate] at hrest3
  have hregion : nm.length + 1 ≤ nameRegion nm := by unfold nameRegion roundUp4; omega
  have htok : FdtEngine.read_value b p = FDT_BEGIN_NODE :=
    read_value_of_be32 b p _ h1 (by norm_num [FDT_BEGIN_NODE])
  have hname : hasName b (p + 4) nm := by
    constructor
    · exact fun i hi => hnm i hi
    · have := hpad 0 (by simp [List.length_replicate]; omega)
      simpa [getD_replicate_zero] using this
  have hstr : Utilities.strlen b (p + 4) = nm.length := by
    apply strlen_spec
    · intro i hi
      rw [hname.1 i hi]
      have := wfName_getD nm hw i hi
      omega
    · exact hname.2
  have hpos : p + 4 + nm.length + (nameRegion nm - nm.length) =
      p + 4 + nameRegion nm := by omega
  rw [hpos] at hrest3
  refine ⟨htok, hname, hrest3, ?_⟩
  rw [move_of_begin_name b p nm.length htok hstr]
  rfl

theorem serializeProp_parts (b : Blob) (p no : Nat) (v : List Nat)
    (rest : List Nat)
    (hser : serializedAt b p (be32 FDT_PROP ++ (be32 v.length ++ (be32 no ++
      (v ++ (List.replicate (roundUp4 v.length - v.length) 0 ++ rest))))))
    (hlen : v.length < 4294967296) (hno : no < 4294967296) :
    FdtEngine.read_value b p = FDT_PROP ∧
    FdtEngine.read_value b (p + 4) = v.length ∧
    FdtEngine.read_value b (p + 8) = no ∧
    serializedAt b (p + 12 + roundUp4 v.length) rest ∧
    FdtEngine.move_to_next_token b p = p + 12 + roundUp4 v.length := by
  obtain ⟨h1, hrest⟩ := serializedAt_append b p _ _ hser
  rw [be32_length] at hrest
  obtain ⟨h2, hrest2⟩ := serializedAt_append b (p + 4) _ _ hrest
  rw [be32_length] at hrest2
  have e1 : p + 4 + 4 = p + 8 := by omega
  rw [e1] at hrest2
  obtain ⟨h3, hrest3⟩ := serializedAt_append b (p + 8) _ _ hrest2
  rw [be32_length] at hrest3
  have e2 : p + 8 + 4 = p + 12 := by omega
  rw [e2] at hrest3
  obtain ⟨hv, hrest4⟩ := serializedAt_append b (p + 12) _ _ hrest3
  obtain ⟨hpad, hrest5⟩ := serializedAt_append b (p + 12 + v.length) _ _ hrest4
  rw [List.length_replicate] at hrest5
  have hru : v.length ≤ roundUp4 v.length := by unfold roundUp4; omega
  have e3 : p + 12 + v.length + (roundUp4 v.length - v.length) =
      p + 12 + roundUp4 v.length := by omega
  rw [e3] at hrest5
  have htok : FdtEngine.read_value b p = FDT_PROP :=
    read_value_of_be32 b p _ h1 (by norm_num [FDT_PROP])
  have hlenv : FdtEngine.read_value b (p + 4) = v.length :=
    read_value_of_be32 b (p + 4) _ h2 hlen
  have hnov : FdtEngine.read_value b (p + 8) = no :=
    read_value_of_be32 b (p + 8) _ h3 hno
  refine ⟨htok, hlenv, hnov, hrest5, ?_⟩
  rw [move_of_prop b p htok, hlenv]

theorem wfEntriesB_prop (no : Nat) (v : List Nat) (es : List Entry) :
    wfEntriesB (.prop no v :: es) = true ↔
      no < 4294967296 ∧ v.length < 4294967296 ∧ (∀ c ∈ v, c < 256) ∧
        wfEntriesB es = true := by
  simp [wfEntriesB, List.all_eq_true, and_assoc]

theorem wfEntriesB_node (nm : List Nat) (ces es : List Entry) :
    wfEntriesB (.node nm ces :: es) = true ↔
      wfName nm ∧ wfEntriesB ces = true ∧ wfEntriesB es = true := by
  simp [wfEntriesB, List.all_eq_true, wfName, and_assoc]

theorem entriesFuel_ge_two : ∀ es : List Entry, 2 ≤ entriesFuel es
  | [] => by unfold entriesFuel; omega
  | .nop :: es => by unfold entriesFuel; omega
  | .prop _ _ :: es => by unfold entriesFuel; omega
  | .node _ _ :: es => by unfold entriesFuel; omega

theorem serializeEntries_length : ∀ es : List Entry,
    (serializeEntries es).length = entriesSize es
  | [] => by simp [serializeEntries, entriesSize]
  | .nop :: es => by
      simp [serializeEntries, entriesSize, serializeEntries_length es, be32]
      omega
  | .prop no v :: es => by
      have hr : v.length ≤ roundUp4 v.length := by unfold roundUp4; omega
      simp [serializeEntries, entriesSize, serializeEntries_length es, be32]
      omega
  | .node nm ces :: es => by
      have hr : nm.length + 1 ≤ nameRegion nm := by unfold nameRegion roundUp4; omega
      simp [serializeEntries, entriesSize, serializeEntries_length ces,
        serializeEntries_length es, be32]
      omega

theorem serializeNode_length (nm : List Nat) (es : List Entry) :
    (serializeNode nm es).length = nodeSize nm es := by
  have hr : nm.length + 1 ≤ nameRegion nm := by unfold nameRegion roundUp4; omega
  simp [serializeNode, nodeSize, serializeEntries_length es, be32]
  omega

theorem serializeEntries_cons_node (nm : List Nat) (ces es : List Entry) :
    serializeEntries (.node nm ces :: es) =
      serializeNode nm ces ++ serializeEntries es := by
  rw [serializeEntries, serializeNode]

theorem entriesEvents_cons_node (nm : List Nat) (ces es : List Entry) (p : Nat) :
    entriesEvents (.node nm ces :: es) p =
      nodeEvents nm ces p ++ entriesEvents es (p + nodeSize nm ces) := by
  simp only [entriesEvents, nodeEvents, nodeSize]
  congr 2
  omega

/-! ### Supporting lemmas: running an action over an event list -/

theorem runEvs_of_satisfied {σ : Type} (act : TAction σ) (evts : List Ev) (s : σ)
    (h : act.satisfied s = true) : runEvs act evts s = some s := by
  cases evts <;> simp [runEvs, h]

theorem runEvs_append {σ : Type} (act : TAction σ) (xs ys : List Ev) (s : σ) :
    runEvs act (xs ++ ys) s =
      (runEvs act xs s).bind (fun s' => runEvs act ys s') := by
  induction xs generalizing s with
  | nil => simp [runEvs]
  | cons e es ih =>
    rw [List.cons_append, runEvs, runEvs]
    by_cases hs : act.satisfied s
    · rw [if_pos hs, if_pos hs]
      exact (runEvs_of_satisfied act ys s hs).symm
    · rw [if_neg hs, if_neg hs]
      rcases happ : applyEv act e s with _ | s'
      · simp
      · simpa using ih s'

/-- Every event of a serialized entry list carries what the blob holds at
its position. -/
theorem entriesEvents_wf (b : Blob) : ∀ (es : List Entry) (p : Nat),
    wfEntriesB es = true → serializedAt b p (serializeEntries es) →
    ∀ ev ∈ entriesEvents es p, evWf b ev
  | [], p, _, _ => by simp [entriesEvents]
  | .nop :: es, p, hwf, hser => by
    intro ev hev
    rw [entriesEvents] at hev
    rcases List.mem_cons.mp hev with rfl | hev'
    · simp [evWf]
    · rw [serializeEntries] at hser
      rw [wfEntriesB] at hwf
      obtain ⟨_, hrest⟩ := serializedAt_append b p _ _ hser
      rw [be32_length] at hrest
      exact entriesEvents_wf b es (p + 4) hwf hrest ev hev'
  | .prop no v :: es, p, hwf, hser => by
    intro ev hev
    obtain ⟨hno, hvlen, _, hwes⟩ := (wfEntriesB_prop no v es).mp hwf
    rw [serializeEntries] at hser
    simp only [List.append_assoc] at hser
    obtain ⟨_, hlenv, hnov, hrest, _⟩ :=
      serializeProp_parts b p no v (serializeEntries es) hser hvlen hno
    rw [entriesEvents] at hev
    rcases List.mem_cons.mp hev with rfl | hev'
    · exact ⟨hlenv, hnov⟩
    · exact entriesEvents_wf b es (p + 12 + roundUp4 v.length) hwes hrest ev hev'
  | .node nm ces :: es, p, hwf, hser => by
    intro ev hev
    obtain ⟨hwnm, hwces, hwes⟩ := (wfEntriesB_node nm ces es).mp hwf
    rw [serializeEntries_cons_node] at hser
    obtain ⟨hnode, hrest⟩ := serializedAt_append b p _ _ hser
    rw [serializeNode_length] at hrest
    obtain ⟨htok, hname, hinner, _⟩ := serializeNode_parts b p nm ces hnode hwnm
    obtain ⟨hces, _⟩ := serializedAt_append b _ _ _ hinner
    rw [entriesEvents] at hev
    rcases List.mem_append.mp hev with hev1 | hev2
    · rcases List.mem_cons.mp hev1 with rfl | hev1'
      · exact ⟨hname, hwnm⟩
      · rcases List.mem_append.mp hev1' with hev3 | hev4
        · exact entriesEvents_wf b ces (p + 4 + nameRegion nm) hwces hces ev hev3
        · have : ev = Ev.evEnd (p + 4 + nameRegion nm + entriesSize ces) := by
            simpa using hev4
          subst this
          simp [evWf]
    · have e : p + 8 + nameRegion nm + entriesSize ces = p + nodeSize nm ces := by
        unfold nodeSize; omega
      rw [e] at hev2
      exact entriesEvents_wf b es (p + nodeSize nm ces) hwes hrest ev hev2

/-- Every event of a serialized node carries what the blob holds at its
position. -/
theorem nodeEvents_wf (b : Blob) (nm : List Nat) (es : List Entry) (p : Nat)
    (hw : wfName nm) (hwf : wfEntriesB es = true)
    (hser : serializedAt b p (serializeNode nm es)) :
    ∀ ev ∈ nodeEvents nm es p, evWf b ev := by
  obtain ⟨htok, hname, hrest, hmove⟩ := serializeNode_parts b p nm es hser hw
  obtain ⟨hents, _⟩ := serializedAt_append b _ _ _ hrest
  intro ev hev
  rw [nodeEvents] at hev
  rcases List.mem_cons.mp hev with rfl | hev'
  · exact ⟨hname, hw⟩
  · rcases List.mem_append.mp hev' with hev1 | hev2
    · exact entriesEvents_wf b es (p + 4 + nameRegion nm) hwf hents ev hev1
    · have : ev = Ev.evEnd (p + 4 + nameRegion nm + entriesSize es) := by
        simpa using hev2
      subst this
      simp [evWf]

/-- Running the `NodeFinder` action over an event list from an unsatisfied
state: the result is the first begin event whose name matches, recorded as
`FdtNode(token, header)`, and the state is untouched when none matches. -/
theorem nf_runEvs (b : Blob) (h : Nat) (tgt : List Nat) (u : Option (List Nat))
    (hwt : wfName tgt) (hwu : ∀ x, u = some x → wfName x) :
    ∀ (evts : List Ev) (s : FdtNode), (∀ ev ∈ evts, evWf b ev) →
      s.is_valid = false →
      runEvs (nfAction b (some h) (some tgt) u) evts s =
        some (match evts.findSome? (fun ev => match ev with
            | .evBegin q nm => if specNameMatches nm tgt u then some (q, nm) else none
            | _ => none) with
          | some x => { m_node_token_start := some x.1, m_fdt_header := some h }
          | none => s) := by
  intro evts
  induction evts with
  | nil => intro s _ _; simp [runEvs, List.findSome?_nil]
  | cons ev evs ih =>
    intro s hwf hs
    rw [runEvs, if_neg (by simp [nfAction, hs])]
    match ev with
    | .evBegin q nm =>
      have hev := hwf (Ev.evBegin q nm) (by simp)
      simp only [evWf] at hev
      obtain ⟨hnm, hwnm⟩ := hev
      show runEvs _ evs
          (if NodeFinder.is_same_as b (some tgt) u (q + 4) then
            { m_node_token_start := some q, m_fdt_header := some h } else s) = _
      rw [is_same_as_spec b (q + 4) nm tgt u hnm hwnm hwt hwu]
      by_cases hm : specNameMatches nm tgt u = true
      · rw [if_pos hm]
        rw [runEvs_of_satisfied _ evs _ (by rfl)]
        simp [List.findSome?_cons, hm]
      · rw [if_neg (by simp [hm])]
        rw [ih s (fun e he => hwf e (by simp [he])) hs]
        simp [List.findSome?_cons, hm]
    | .evEnd q =>
      show runEvs _ evs s = _
      rw [ih s (fun e he => hwf e (by simp [he])) hs]
      simp [List.findSome?_cons]
    | .evProp q no len =>
      show runEvs _ evs s = _
      rw [ih s (fun e he => hwf e (by simp [he])) hs]
      simp [List.findSome?_cons]
    | .evNop q =>
      show runEvs _ evs s = _
      rw [ih s (fun e he => hwf e (by simp [he])) hs]
      simp [List.findSome?_cons]

/-- Running the `PropertyFinder` action over an event list from a
not-yet-found state: the result is determined by the first property event
whose resolved name matches the looked-for one — length recorded, pointer
recorded only when the length is nonzero — and the state is untouched when
none matches. -/
theorem pf_runEvs (b : Blob) (h : Nat) (lk : Blob) :
    ∀ (evts : List Ev) (s : PropertyFinder), (∀ ev ∈ evts, evWf b ev) →
      s.m_property_found = false → s.m_looked_property = some lk →
      runEvs (pfAction b (some h)) evts s =
        some (match evts.findSome? (fun ev => match ev with
            | .evProp q no len =>
              if Utilities.strcmp b (FdtEngine.get_string_block_ptr b h + no) lk 0 = 0
              then some (q, no, len) else none
            | _ => none) with
          | some x =>
            { m_result := if x.2.2 ≠ 0 then some (x.1 + 12) else s.m_result,
              m_looked_property := some lk,
              m_property_length := x.2.2,
              m_property_found := true }
          | none => s) := by
  intro evts
  induction evts with
  | nil => intro s _ _ _; simp [runEvs, List.findSome?_nil]
  | cons ev evs ih =>
    intro s hwf hs hlk
    rw [runEvs, if_neg (by simp [pfAction, hs])]
    match ev with
    | .evProp q no len =>
      have hev := hwf (Ev.evProp q no len) (by simp)
      simp only [evWf] at hev
      obtain ⟨hlenv, hnov⟩ := hev
      have happ : applyEv (pfAction b (some h)) (Ev.evProp q no len) s =
          some (if Utilities.strcmp b
              (FdtEngine.get_string_block_ptr b h + no) lk 0 = 0
            then
              { m_result := if len ≠ 0 then some (q + 12) else s.m_result,
                m_looked_property := some lk,
                m_property_length := len,
                m_property_found := true }
            else s) := by
        simp only [applyEv, pfAction, hlk, hnov, hlenv]
      rw [happ]
      by_cases hm : Utilities.strcmp b (FdtEngine.get_string_block_ptr b h + no) lk 0 = 0
      · rw [if_pos hm]
        show runEvs (pfAction b (some h)) evs
            { m_result := if len ≠ 0 then some (q + 12) else s.m_result,
              m_looked_property := some lk,
              m_property_length := len,
              m_property_found := true } = _
        rw [runEvs_of_satisfied _ evs _ (by rfl)]
        simp [List.findSome?_cons, hm]
      · rw [if_neg hm]
        show runEvs (pfAction b (some h)) evs s = _
        rw [ih s (fun e he => hwf e (by simp [he])) hs hlk]
        simp [List.findSome?_cons, hm]
    | .evBegin q nm =>
      show runEvs _ evs s = _
      rw [ih s (fun e he => hwf e (by simp [he])) hs hlk]
      simp [List.findSome?_cons]
    | .evEnd q =>
      show runEvs _ evs s = _
      rw [ih s (fun e he => hwf e (by simp [he])) hs hlk]
      simp [List.findSome?_cons]
    | .evNop q =>
      show runEvs _ evs s = _
      rw [ih s (fun e he => hwf e (by simp [he])) hs hlk]
      simp [List.findSome?_cons]

theorem serializedAt_join (b : Blob) (p : Nat) (xs ys : List Nat)
    (hx : serializedAt b p xs) (hy : serializedAt b (p + xs.length) ys) :
    serializedAt b p (xs ++ ys) := by
  intro i hi
  rcases Nat.lt_or_ge i xs.length with hlt | hge
  · rw [getD_append_left xs ys i hlt]
    exact hx i hlt
  · obtain ⟨j, rfl⟩ : ∃ j, i = xs.length + j := ⟨i - xs.length, by omega⟩
    rw [getD_append_right xs ys j]
    have e : p + (xs.length + j) = p + xs.length + j := by omega
    rw [e]
    apply hy
    simp at hi
    omega

theorem findSome_eq_find {α β : Type} (f : α → Option β) (pr : β → Bool) :
    ∀ l : List α,
    l.findSome? (fun a => match f a with
      | some x => if pr x then some x else none
      | none => none) = (l.filterMap f).find? pr := by
  intro l
  induction l with
  | nil => simp
  | cons a l ih =>
    rcases hf : f a with _ | x
    · simp [List.findSome?_cons, List.filterMap_cons, hf, ih]
    · by_cases hp : pr x = true
      · simp [List.findSome?_cons, List.filterMap_cons, hf, hp, List.find?_cons]
      · simp [List.findSome?_cons, List.filterMap_cons, hf, hp, List.find?_cons, ih]

/-! ### The walk simulation: the engine on a serialized tree computes the
event run -/

theorem walk_sim (b : Blob) (h : Nat) {σ : Type} (act : TAction σ) : ∀ fuel : Nat,
    (∀ (es : List Entry) (start p : Nat) (s : σ),
      wfEntriesB es = true →
      ((start ≠ FdtEngine.get_structure_block_ptr b h ∧
          serializedAt b p (serializeEntries es ++ be32 FDT_END_NODE)) ∨
        (start = FdtEngine.get_structure_block_ptr b h ∧
          serializedAt b p
            (serializeEntries es ++ (be32 FDT_END_NODE ++ be32 FDT_END)))) →
      FdtEngine.get_structure_block_ptr b h < p →
      entriesFuel es ≤ fuel →
      LoopSim b h act fuel es start p s) ∧
    (∀ (nm : List Nat) (es : List Entry) (p : Nat) (s : σ),
      wfName nm → wfEntriesB es = true →
      serializedAt b p (serializeNode nm es) →
      FdtEngine.get_structure_block_ptr b h < p →
      entriesFuel es < fuel →
      NodeSim b h act fuel nm es p s) := by
  intro fuel
  induction fuel with
  | zero =>
    constructor
    · intro es start p s _ _ _ hf
      have := entriesFuel_ge_two es
      omega
    · intro nm es p s _ _ _ _ hf
      have := entriesFuel_ge_two es
      omega
  | succ f ih =>
    obtain ⟨ihL, ihN⟩ := ih
    constructor
    · -- the loop statement at fuel f + 1
      intro es start p s hwes hctx hsb hfl
      by_cases hsat : act.satisfied s = true
      · have hrun := runEvs_of_satisfied act
          (entriesEvents es p ++ [Ev.evEnd (p + entriesSize es)]) s hsat
        constructor
        · intro hnone
          rw [hrun] at hnone
          exact absurd hnone (by simp)
        · intro s' hsome
          rw [hrun] at hsome
          obtain rfl := Option.some.inj hsome
          refine ⟨p, ?_, ?_⟩
          · rw [traverse_loop, if_pos hsat]
          · intro hns
            exact absurd hsat (by simp [hns])
      · -- not satisfied: expose the tail X after the entries
        obtain ⟨X, hX, hser⟩ : ∃ X : List Nat,
            ((start ≠ FdtEngine.get_structure_block_ptr b h ∧
                X = be32 FDT_END_NODE) ∨
              (start = FdtEngine.get_structure_block_ptr b h ∧
                X = be32 FDT_END_NODE ++ be32 FDT_END)) ∧
            serializedAt b p (serializeEntries es ++ X) := by
          rcases hctx with ⟨hstart, hser⟩ | ⟨hstart, hser⟩
          · exact ⟨_, Or.inl ⟨hstart, rfl⟩, hser⟩
          · exact ⟨_, Or.inr ⟨hstart, rfl⟩, hser⟩
        rcases es with _ | ⟨e, es'⟩
        · -- no entries left: the END_NODE of the node (and for the root
          -- walk the terminal END behind it)
          simp only [serializeEntries, List.nil_append] at hser
          have hevents : entriesEvents ([] : List Entry) p ++
              [Ev.evEnd (p + entriesSize ([] : List Entry))] = [Ev.evEnd p] := by
            simp [entriesEvents, entriesSize]
          rcases hX with ⟨hstart, rfl⟩ | ⟨hstart, rfl⟩
          · -- nested walk: END_NODE returns
            have htok := read_value_of_be32 b p _ hser (by norm_num [FDT_END_NODE])
            rcases hend : act.on_end p s with _ | s2
            · have hloop : traverse_loop b (some h) act (f + 1) start p s = .ub := by
                rw [traverse_loop, if_neg (by simp [hsat])]
                simp [htok, hend, FDT_BEGIN_NODE, FDT_END_NODE]
              have hrun : runEvs act (entriesEvents ([] : List Entry) p ++
                  [Ev.evEnd (p + entriesSize ([] : List Entry))]) s = none := by
                rw [hevents]
                simp [runEvs, hsat, applyEv, hend]
              exact ⟨fun _ => hloop, fun s' hsome => by
                rw [hrun] at hsome; simp at hsome⟩
            · have hmove := move_of_end_node b p htok
              have hloop : traverse_loop b (some h) act (f + 1) start p s =
                  .ok ALL_OK (p + 4) s2 := by
                rw [traverse_loop, if_neg (by simp [hsat])]
                simp [htok, hend, FDT_BEGIN_NODE, FDT_END_NODE, hmove, hstart]
              have hrun : runEvs act (entriesEvents ([] : List Entry) p ++
                  [Ev.evEnd (p + entriesSize ([] : List Entry))]) s = some s2 := by
                rw [hevents]
                simp [runEvs, hsat, applyEv, hend]
              refine ⟨fun hnone => by rw [hrun] at hnone; simp at hnone,
                fun s' hsome => ?_⟩
              rw [hrun] at hsome
              obtain rfl := Option.some.inj hsome
              exact ⟨p + 4, hloop, fun _ => by simp [entriesSize]⟩
          · -- root walk: END_NODE then the terminal END
            obtain ⟨h2, h9⟩ := serializedAt_append b p _ _ hser
            rw [be32_length] at h9
            have htok := read_value_of_be32 b p _ h2 (by norm_num [FDT_END_NODE])
            have htok9 := read_value_of_be32 b (p + 4) _ h9 (by norm_num [FDT_END])
            rcases hend : act.on_end p s with _ | s2
            · have hloop : traverse_loop b (some h) act (f + 1) start p s = .ub := by
                rw [traverse_loop, if_neg (by simp [hsat])]
                simp [htok, hend, FDT_BEGIN_NODE, FDT_END_NODE]
              have hrun : runEvs act (entriesEvents ([] : List Entry) p ++
                  [Ev.evEnd (p + entriesSize ([] : List Entry))]) s = none := by
                rw [hevents]
                simp [runEvs, hsat, applyEv, hend]
              exact ⟨fun _ => hloop, fun s' hsome => by
                rw [hrun] at hsome; simp at hsome⟩
            · have hmove := move_of_end_node b p htok
              rw [entriesFuel] at hfl
              obtain ⟨f', rfl⟩ : ∃ f', f = f' + 1 := ⟨f - 1, by omega⟩
              have hstep : traverse_loop b (some h) act (f' + 1 + 1) start p s =
                  traverse_loop b (some h) act (f' + 1) start (p + 4) s2 := by
                rw [traverse_loop, if_neg (by simp [hsat])]
                simp [htok, hend, FDT_BEGIN_NODE, FDT_END_NODE, hmove, hstart]
              have hstep2 : traverse_loop b (some h) act (f' + 1) start (p + 4) s2 =
                  .ok ALL_OK (p + 4) s2 := by
                by_cases hsat2 : act.satisfied s2 = true
                · rw [traverse_loop, if_pos hsat2]
                · rw [traverse_loop, if_neg (by simp [hsat2])]
                  simp [htok9, FDT_BEGIN_NODE, FDT_END_NODE, FDT_PROP, FDT_NOP,
                    FDT_END, hstart]
              have hrun : runEvs act (entriesEvents ([] : List Entry) p ++
                  [Ev.evEnd (p + entriesSize ([] : List Entry))]) s = some s2 := by
                rw [hevents]
                simp [runEvs, hsat, applyEv, hend]
              refine ⟨fun hnone => by rw [hrun] at hnone; simp at hnone,
                fun s' hsome => ?_⟩
              rw [hrun] at hsome
              obtain rfl := Option.some.inj hsome
              exact ⟨p + 4, hstep.trans hstep2, fun _ => by simp [entriesSize]⟩
        · -- an entry follows
          have hctx' : ∀ pz : Nat, serializedAt b pz (serializeEntries es' ++ X) →
              ((start ≠ FdtEngine.get_structure_block_ptr b h ∧
                  serializedAt b pz (serializeEntries es' ++ be32 FDT_END_NODE)) ∨
                (start = FdtEngine.get_structure_block_ptr b h ∧
                  serializedAt b pz
                    (serializeEntries es' ++ (be32 FDT_END_NODE ++ be32 FDT_END)))) := by
            intro pz hz
            rcases hX with ⟨hstart, rfl⟩ | ⟨hstart, rfl⟩
            · exact Or.inl ⟨hstart, hz⟩
            · exact Or.inr ⟨hstart, hz⟩
          rcases e with _ | ⟨no, v⟩ | ⟨nm, ces⟩
          · -- NOP entry
            rw [wfEntriesB] at hwes
            rw [serializeEntries] at hser
            simp only [List.append_assoc] at hser
            obtain ⟨h4, hrest⟩ := serializedAt_append b p _ _ hser
            rw [be32_length] at hrest
            have htok := read_value_of_be32 b p _ h4 (by norm_num [FDT_NOP])
            have hmove := move_of_nop b p htok
            have hsize : p + entriesSize (Entry.nop :: es') =
                p + 4 + entriesSize es' := by rw [entriesSize]; omega
            have hlist : entriesEvents (Entry.nop :: es') p ++
                [Ev.evEnd (p + entriesSize (Entry.nop :: es'))] =
                Ev.evNop p :: (entriesEvents es' (p + 4) ++
                  [Ev.evEnd (p + 4 + entriesSize es')]) := by
              rw [entriesEvents, hsize]
              simp
            rcases hnop : act.on_nop p s with _ | s2
            · have hloop : traverse_loop b (some h) act (f + 1) start p s = .ub := by
                rw [traverse_loop, if_neg (by simp [hsat])]
                simp [htok, hnop, FDT_BEGIN_NODE, FDT_END_NODE, FDT_PROP, FDT_NOP]
              have hrun : runEvs act (entriesEvents (Entry.nop :: es') p ++
                  [Ev.evEnd (p + entriesSize (Entry.nop :: es'))]) s = none := by
                rw [hlist, runEvs, if_neg (by simp [hsat])]
                simp [applyEv, hnop]
              exact ⟨fun _ => hloop, fun s' hsome => by
                rw [hrun] at hsome; simp at hsome⟩
            · have hstep : traverse_loop b (some h) act (f + 1) start p s =
                  traverse_loop b (some h) act f start (p + 4) s2 := by
                rw [traverse_loop, if_neg (by simp [hsat])]
                simp [htok, hnop, FDT_BEGIN_NODE, FDT_END_NODE, FDT_PROP, FDT_NOP,
                  hmove]
              have hA := ihL es' start (p + 4) s2 hwes (hctx' (p + 4) hrest)
                (by omega) (by rw [entriesFuel] at hfl; omega)
              have hrunstep : ∀ z, runEvs act (entriesEvents (Entry.nop :: es') p ++
                  [Ev.evEnd (p + entriesSize (Entry.nop :: es'))]) s = z ↔
                  runEvs act (entriesEvents es' (p + 4) ++
                    [Ev.evEnd (p + 4 + entriesSize es')]) s2 = z := by
                intro z
                rw [hlist, runEvs, if_neg (by simp [hsat])]
                simp [applyEv, hnop]
              constructor
              · intro hnone
                rw [hstep]
                exact hA.1 ((hrunstep none).mp hnone)
              · intro s' hsome
                obtain ⟨q, hq, hqpos⟩ := hA.2 s' ((hrunstep (some s')).mp hsome)
                refine ⟨q, by rw [hstep]; exact hq, fun hns => ?_⟩
                rw [hqpos hns, hsize]
          · -- PROP entry
            obtain ⟨hno, hvlen, _, hwes'⟩ := (wfEntriesB_prop no v es').mp hwes
            rw [serializeEntries] at hser
            simp only [List.append_assoc] at hser
            obtain ⟨htok, hlenv, hnov, hrest, hmove⟩ :=
              serializeProp_parts b p no v (serializeEntries es' ++ X) hser hvlen hno
            obtain ⟨hrest', _⟩ := serializedAt_append b _ _ _ (by
              have : serializedAt b (p + 12 + roundUp4 v.length)
                  (serializeEntries es' ++ X) := hrest
              exact this)
            have hsize : p + entriesSize (Entry.prop no v :: es') =
                p + 12 + roundUp4 v.length + entriesSize es' := by
              rw [entriesSize]; omega
            have hlist : entriesEvents (Entry.prop no v :: es') p ++
                [Ev.evEnd (p + entriesSize (Entry.prop no v :: es'))] =
                Ev.evProp p no v.length :: (entriesEvents es'
                  (p + 12 + roundUp4 v.length) ++
                  [Ev.evEnd (p + 12 + roundUp4 v.length + entriesSize es')]) := by
              rw [entriesEvents, hsize]
              simp
            rcases hprop : act.on_prop p s with _ | s2
            · have hloop : traverse_loop b (some h) act (f + 1) start p s = .ub := by
                rw [traverse_loop, if_neg (by simp [hsat])]
                simp [htok, hprop, FDT_BEGIN_NODE, FDT_END_NODE, FDT_PROP]
              have hrun : runEvs act (entriesEvents (Entry.prop no v :: es') p ++
                  [Ev.evEnd (p + entriesSize (Entry.prop no v :: es'))]) s = none := by
                rw [hlist, runEvs, if_neg (by simp [hsat])]
                simp [applyEv, hprop]
              exact ⟨fun _ => hloop, fun s' hsome => by
                rw [hrun] at hsome; simp at hsome⟩
            · have hstep : traverse_loop b (some h) act (f + 1) start p s =
                  traverse_loop b (some h) act f start
                    (p + 12 + roundUp4 v.length) s2 := by
                rw [traverse_loop, if_neg (by simp [hsat])]
                simp [htok, hprop, FDT_BEGIN_NODE, FDT_END_NODE, FDT_PROP, hmove]
              have hA := ihL es' start (p + 12 + roundUp4 v.length) s2 hwes'
                (hctx' _ hrest) (by omega) (by rw [entriesFuel] at hfl; omega)
              have hrunstep : ∀ z, runEvs act
                  (entriesEvents (Entry.prop no v :: es') p ++
                    [Ev.evEnd (p + entriesSize (Entry.prop no v :: es'))]) s = z ↔
                  runEvs act (entriesEvents es' (p + 12 + roundUp4 v.length) ++
                    [Ev.evEnd (p + 12 + roundUp4 v.length + entriesSize es')]) s2 = z := by
                intro z
                rw [hlist, runEvs, if_neg (by simp [hsat])]
                simp [applyEv, hprop]
              constructor
              · intro hnone
                rw [hstep]
                exact hA.1 ((hrunstep none).mp hnone)
              · intro s' hsome
                obtain ⟨q, hq, hqpos⟩ := hA.2 s' ((hrunstep (some s')).mp hsome)
                refine ⟨q, by rw [hstep]; exact hq, fun hns => ?_⟩
                rw [hqpos hns, hsize]
          · -- a child node
            obtain ⟨hwnm, hwces, hwes'⟩ := (wfEntriesB_node nm ces es').mp hwes
            rw [serializeEntries_cons_node] at hser
            simp only [List.append_assoc] at hser
            obtain ⟨hnode, hrest⟩ := serializedAt_append b p _ _ hser
            rw [serializeNode_length] at hrest
            have htok := (serializeNode_parts b p nm ces hnode hwnm).1
            have hfc := entriesFuel_ge_two ces
            have hfe := entriesFuel_ge_two es'
            rw [entriesFuel] at hfl
            have hN := ihN nm ces p s hwnm hwces hnode hsb (by omega)
            have hstep : traverse_loop b (some h) act (f + 1) start p s =
                (match traverse_node b (some h) act f p s with
                 | .ok r q s' =>
                   if r = ALL_OK then traverse_loop b (some h) act f start q s'
                   else .ok r q s'
                 | .ub => .ub
                 | .out => .out) := by
              rw [traverse_loop, if_neg (by simp [hsat])]
              simp [htok]
            have hsize : p + entriesSize (Entry.node nm ces :: es') =
                p + nodeSize nm ces + entriesSize es' := by
              rw [entriesSize]; unfold nodeSize; omega
            have hlist : entriesEvents (Entry.node nm ces :: es') p ++
                [Ev.evEnd (p + entriesSize (Entry.node nm ces :: es'))] =
                nodeEvents nm ces p ++ (entriesEvents es' (p + nodeSize nm ces) ++
                  [Ev.evEnd (p + nodeSize nm ces + entriesSize es')]) := by
              rw [entriesEvents_cons_node, hsize, List.append_assoc]
            have hhead : runEvs act (nodeEvents nm ces p) s =
                (act.on_begin p s).bind (fun s1 =>
                  runEvs act (entriesEvents ces (p + 4 + nameRegion nm) ++
                    [Ev.evEnd (p + 4 + nameRegion nm + entriesSize ces)]) s1) := by
              rw [nodeEvents, runEvs, if_neg (by simp [hsat])]
              cases hob : act.on_begin p s <;> simp [applyEv, hob]
            have htotal : ∀ z, runEvs act (entriesEvents (Entry.node nm ces :: es') p ++
                [Ev.evEnd (p + entriesSize (Entry.node nm ces :: es'))]) s = z ↔
                ((act.on_begin p s).bind (fun s1 =>
                  runEvs act (entriesEvents ces (p + 4 + nameRegion nm) ++
                    [Ev.evEnd (p + 4 + nameRegion nm + entriesSize ces)]) s1)).bind
                  (fun s'' => runEvs act (entriesEvents es' (p + nodeSize nm ces) ++
                    [Ev.evEnd (p + nodeSize nm ces + entriesSize es')]) s'') = z := by
              intro z
              rw [hlist, runEvs_append, hhead]
            rcases hob : act.on_begin p s with _ | s1
            · -- begin hook hits undefined behaviour
              have hub := hN.1 hob
              constructor
              · intro hnone
                rw [hstep, hub]
              · intro s' hsome
                rw [htotal (some s'), hob] at hsome
                simp at hsome
            · rcases hir : runEvs act (entriesEvents ces (p + 4 + nameRegion nm) ++
                  [Ev.evEnd (p + 4 + nameRegion nm + entriesSize ces)]) s1 with _ | s''
              · -- a hook inside the child subtree hits undefined behaviour
                have hub := (hN.2 s1 hob).1 hir
                constructor
                · intro hnone
                  rw [hstep, hub]
                · intro s' hsome
                  rw [htotal (some s'), hob] at hsome
                  simp [hir] at hsome
              · obtain ⟨q, hq, hqpos⟩ := (hN.2 s1 hob).2 s'' hir
                by_cases hsat'' : act.satisfied s'' = true
                · -- satisfied inside the child subtree: the walk stops
                  have htail : runEvs act (entriesEvents es' (p + nodeSize nm ces) ++
                      [Ev.evEnd (p + nodeSize nm ces + entriesSize es')]) s'' =
                      some s'' := runEvs_of_satisfied act _ s'' hsat''
                  obtain ⟨f', rfl⟩ : ∃ f', f = f' + 1 := ⟨f - 1, by omega⟩
                  have hcont : traverse_loop b (some h) act (f' + 1) start q s'' =
                      .ok ALL_OK q s'' := by
                    rw [traverse_loop, if_pos hsat'']
                  constructor
                  · intro hnone
                    rw [htotal none, hob] at hnone
                    simp [hir, htail] at hnone
                  · intro s' hsome
                    rw [htotal (some s'), hob] at hsome
                    simp [hir, htail] at hsome
                    obtain rfl := hsome
                    refine ⟨q, ?_, fun hns => absurd hsat'' (by simp [hns])⟩
                    rw [hstep, hq]
                    simp [hcont]
                · -- child subtree fully walked: continue with the siblings
                  have hsf : act.satisfied s'' = false := by simpa using hsat''
                  have hqv := hqpos hsf
                  subst hqv
                  have hA := ihL es' start (p + nodeSize nm ces) s'' hwes'
                    (hctx' _ hrest) (by unfold nodeSize; omega) (by omega)
                  constructor
                  · intro hnone
                    rw [htotal none, hob] at hnone
                    simp only [Option.some_bind, hir] at hnone
                    rw [hstep, hq]
                    simp only [if_pos rfl]
                    exact hA.1 hnone
                  · intro s' hsome
                    rw [htotal (some s'), hob] at hsome
                    simp only [Option.some_bind, hir] at hsome
                    obtain ⟨q', hq', hqpos'⟩ := hA.2 s' hsome
                    refine ⟨q', ?_, fun hns => ?_⟩
                    · rw [hstep, hq]
                      simp only [if_pos rfl]
                      exact hq'
                    · rw [hqpos' hns, hsize]
    · -- the node statement at fuel f + 1
      intro nm es p s hwnm hwes hser hsb hfl
      obtain ⟨htok, hname, hrest, hmove⟩ := serializeNode_parts b p nm es hser hwnm
      constructor
      · intro hb
        rw [traverse_node, if_pos (by rw [htok]), hb]
      · intro s1 hb1
        have hloopeq : traverse_node b (some h) act (f + 1) p s =
            traverse_loop b (some h) act f p (p + 4 + nameRegion nm) s1 := by
          rw [traverse_node, if_pos (by rw [htok]), hb1, hmove]
        have hA := ihL es p (p + 4 + nameRegion nm) s1 hwes
          (Or.inl ⟨by omega, hrest⟩) (by omega) (by omega)
        constructor
        · intro hnone
          rw [hloopeq]
          exact hA.1 hnone
        · intro s' hsome
          obtain ⟨q, hq, hqpos⟩ := hA.2 s' hsome
          refine ⟨q, by rw [hloopeq]; exact hq, fun hns => ?_⟩
          rw [hqpos hns]
          unfold nodeSize
          omega

/-- The walk simulation for a node whose position is the structure block's
first token (the root handle): here the node's END_NODE is followed by the
terminal END token. -/
theorem root_sim (b : Blob) (h : Nat) {σ : Type} (act : TAction σ)
    (nm : List Nat) (es : List Entry) (p : Nat) (s : σ) (fuel : Nat)
    (hwnm : wfName nm) (hwes : wfEntriesB es = true)
    (hser : serializedAt b p (serializeNode nm es ++ be32 FDT_END))
    (hsbp : FdtEngine.get_structure_block_ptr b h = p)
    (hfl : entriesFuel es < fuel) :
    NodeSim b h act fuel nm es p s := by
  obtain ⟨f, rfl⟩ : ∃ f, fuel = f + 1 :=
    ⟨fuel - 1, by have := entriesFuel_ge_two es; omega⟩
  obtain ⟨hnode, hend⟩ := serializedAt_append b p _ _ hser
  rw [serializeNode_length] at hend
  obtain ⟨htok, hname, hrest, hmove⟩ := serializeNode_parts b p nm es hnode hwnm
  obtain ⟨hents, hend2⟩ := serializedAt_append b _ _ _ hrest
  rw [serializeEntries_length] at hend2
  have hcomb : serializedAt b (p + 4 + nameRegion nm)
      (serializeEntries es ++ (be32 FDT_END_NODE ++ be32 FDT_END)) := by
    apply serializedAt_join
    · exact hents
    · rw [serializeEntries_length]
      apply serializedAt_join
      · exact hend2
      · rw [be32_length]
        have e : p + 4 + nameRegion nm + entriesSize es + 4 = p + nodeSize nm es := by
          unfold nodeSize
          omega
        rw [e]
        exact hend
  constructor
  · intro hb
    rw [traverse_node, if_pos (by rw [htok]), hb]
  · intro s1 hb1
    have hloopeq : traverse_node b (some h) act (f + 1) p s =
        traverse_loop b (some h) act f p (p + 4 + nameRegion nm) s1 := by
      rw [traverse_node, if_pos (by rw [htok]), hb1, hmove]
    have hA := (walk_sim b h act f).1 es p (p + 4 + nameRegion nm) s1 hwes
      (Or.inr ⟨hsbp.symm, hcomb⟩) (by omega) (by omega)
    constructor
    · intro hnone
      rw [hloopeq]
      exact hA.1 hnone
    · intro s' hsome
      obtain ⟨q, hq, hqpos⟩ := hA.2 s' hsome
      refine ⟨q, by rw [hloopeq]; exact hq, fun hns => ?_⟩
      rw [hqpos hns]
      unfold nodeSize
      omega

theorem node_sim_cases (b : Blob) (h : Nat) {σ : Type} (act : TAction σ)
    (nm : List Nat) (es : List Entry) (p : Nat) (s : σ) (fuel : Nat)
    (hwnm : wfName nm) (hwes : wfEntriesB es = true)
    (hpos : NodePlacement b h nm es p)
    (hfl : entriesFuel es < fuel) :
    NodeSim b h act fuel nm es p s := by
  rcases hpos with ⟨hlt, hser⟩ | ⟨heq, hser⟩
  · exact (walk_sim b h act fuel).2 nm es p s hwnm hwes hser hlt hfl
  · exact root_sim b h act nm es p s fuel hwnm hwes hser heq hfl

theorem placement_serialized (b : Blob) (h : Nat) (nm : List Nat)
    (es : List Entry) (p : Nat) (hpos : NodePlacement b h nm es p) :
    serializedAt b p (serializeNode nm es) := by
  rcases hpos with ⟨_, hser⟩ | ⟨_, hser⟩
  · exact hser
  · exact (serializedAt_append b p _ _ hser).1

/-- `get_sub_node` on a handle at a serialized node returns the first node
of the subtree — in depth-first pre-order, the handle's own node included —
whose name the finder's comparison accepts, and the invalid node when none
is accepted. -/
theorem get_sub_node_sim (b : Blob) (h : Nat) (nm : List Nat) (es : List Entry)
    (p : Nat) (tgt : List Nat) (u : Option (List Nat)) (fuel : Nat)
    (hwnm : wfName nm) (hwes : wfEntriesB es = true)
    (hwt : wfName tgt) (hwu : ∀ x, u = some x → wfName x)
    (hpos : NodePlacement b h nm es p)
    (hfl : entriesFuel es < fuel) :
    FdtNode.get_sub_node b fuel
        { m_node_token_start := some p, m_fdt_header := some h } (some tgt) u =
      .ok (match (nodeList nm es p).find? (fun x => specNameMatches x.2 tgt u) with
        | some x => { m_node_token_start := some x.1, m_fdt_header := some h }
        | none => {}) := by
  have hserN := placement_serialized b h nm es p hpos
  have hN := node_sim_cases b h (nfAction b (some h) (some tgt) u) nm es p
    ({} : FdtNode) fuel hwnm hwes hpos hfl
  have hevwf := nodeEvents_wf b nm es p hwnm hwes hserN
  have htotal := nf_runEvs b h tgt u hwt hwu (nodeEvents nm es p) {} hevwf rfl
  have hconv : (nodeEvents nm es p).findSome? (fun ev => match ev with
      | Ev.evBegin q n => if specNameMatches n tgt u then some (q, n) else none
      | _ => none) =
      (nodeList nm es p).find? (fun x => specNameMatches x.2 tgt u) := by
    have hfe := findSome_eq_find (fun ev => match ev with
        | Ev.evBegin q n => some (q, n)
        | _ => none)
      (fun x : Nat × List Nat => specNameMatches x.2 tgt u) (nodeEvents nm es p)
    simp only [nodeList]
    rw [← hfe]
    congr 1
    funext ev
    cases ev <;> simp
  rw [hconv] at htotal
  have hs0 : (nfAction b (some h) (some tgt) u).satisfied ({} : FdtNode) = false := rfl
  have hb1 : (nfAction b (some h) (some tgt) u).on_begin p ({} : FdtNode) =
      some (if NodeFinder.is_same_as b (some tgt) u (p + 4) then
        { m_node_token_start := some p, m_fdt_header := some h } else {}) := rfl
  have hhead : runEvs (nfAction b (some h) (some tgt) u) (nodeEvents nm es p)
      ({} : FdtNode) =
      ((nfAction b (some h) (some tgt) u).on_begin p {}).bind (fun s1 =>
        runEvs (nfAction b (some h) (some tgt) u)
          (entriesEvents es (p + 4 + nameRegion nm) ++
            [Ev.evEnd (p + 4 + nameRegion nm + entriesSize es)]) s1) := by
    rw [nodeEvents, runEvs, if_neg (by simp [hs0])]
    cases hob : (nfAction b (some h) (some tgt) u).on_begin p ({} : FdtNode) <;>
      simp [applyEv, hob]
  rw [hhead, hb1, Option.some_bind] at htotal
  obtain ⟨q, hq, _⟩ := (hN.2 _ hb1).2 _ htotal
  simp only [FdtNode.get_sub_node]
  rw [hq]

/-- Running a `PropertyFinder` over a handle at a serialized node: the
final state records the first property of the subtree — in depth-first
pre-order — whose resolved name matches, with its pointer stored only when
its decoded length is nonzero, and stays at the initial state when none
matches. -/
theorem run_pf_sim (b : Blob) (h : Nat) (nm : List Nat) (es : List Entry)
    (p : Nat) (lk : List Nat) (fuel : Nat)
    (hwnm : wfName nm) (hwes : wfEntriesB es = true)
    (hpos : NodePlacement b h nm es p)
    (hfl : entriesFuel es < fuel) :
    FdtNode.run_property_finder b fuel
        { m_node_token_start := some p, m_fdt_header := some h } (some lk) =
      .ok (match (propList nm es p).find? (fun x =>
          decide (Utilities.strcmp b
            (FdtEngine.get_string_block_ptr b h + x.2.1) lk 0 = 0)) with
        | some x =>
          { m_result := if x.2.2 ≠ 0 then some (x.1 + 12) else none,
            m_looked_property := some lk,
            m_property_length := x.2.2,
            m_property_found := true }
        | none =>
          { m_result := none, m_looked_property := some lk,
            m_property_length := 0, m_property_found := false }) := by
  have hserN := placement_serialized b h nm es p hpos
  have hN := node_sim_cases b h (pfAction b (some h)) nm es p
    ({ m_looked_property := some lk } : PropertyFinder) fuel hwnm hwes hpos hfl
  have hevwf := nodeEvents_wf b nm es p hwnm hwes hserN
  have htotal := pf_runEvs b h lk (nodeEvents nm es p)
    { m_looked_property := some lk } hevwf rfl rfl
  have hconv : (nodeEvents nm es p).findSome? (fun ev => match ev with
      | Ev.evProp q no len =>
        if Utilities.strcmp b (FdtEngine.get_string_block_ptr b h + no) lk 0 = 0
        then some (q, no, len) else none
      | _ => none) =
      (propList nm es p).find? (fun x =>
        decide (Utilities.strcmp b
          (FdtEngine.get_string_block_ptr b h + x.2.1) lk 0 = 0)) := by
    have hfe := findSome_eq_find (fun ev => match ev with
        | Ev.evProp q no len => some (q, no, len)
        | _ => none)
      (fun x : Nat × Nat × Nat =>
        decide (Utilities.strcmp b
          (FdtEngine.get_string_block_ptr b h + x.2.1) lk 0 = 0))
      (nodeEvents nm es p)
    simp only [propList]
    rw [← hfe]
    congr 1
    funext ev
    cases ev <;> simp
  rw [hconv] at htotal
  have hs0 : (pfAction b (some h)).satisfied
      ({ m_looked_property := some lk } : PropertyFinder) = false := rfl
  have hb1 : (pfAction b (some h)).on_begin p
      ({ m_looked_property := some lk } : PropertyFinder) =
      some { m_looked_property := some lk } := rfl
  have hhead : runEvs (pfAction b (some h)) (nodeEvents nm es p)
      ({ m_looked_property := some lk } : PropertyFinder) =
      ((pfAction b (some h)).on_begin p { m_looked_property := some lk }).bind
        (fun s1 => runEvs (pfAction b (some h))
          (entriesEvents es (p + 4 + nameRegion nm) ++
            [Ev.evEnd (p + 4 + nameRegion nm + entriesSize es)]) s1) := by
    rw [nodeEvents, runEvs, if_neg (by simp [hs0])]
    cases hob : (pfAction b (some h)).on_begin p
        ({ m_looked_property := some lk } : PropertyFinder) <;>
      simp [applyEv, hob]
  rw [hhead, hb1, Option.some_bind] at htotal
  obtain ⟨q, hq, _⟩ := (hN.2 _ hb1).2 _ htotal
  simp only [FdtNode.run_property_finder]
  rw [hq]

theorem find_congr {α : Type} (p q : α → Bool) : ∀ l : List α,
    (∀ x ∈ l, p x = q x) → l.find? p = l.find? q := by
  intro l
  induction l with
  | nil => intro _; rfl
  | cons x xs ih =>
    intro hall
    have hx := hall x (by simp)
    by_cases hq : q x = true
    · rw [List.find?_cons_of_pos _ (by rw [hx]; exact hq),
        List.find?_cons_of_pos _ hq]
    · have hq2 : q x = false := by simpa using hq
      rw [List.find?_cons_of_neg _ (by simp [hx, hq2]),
        List.find?_cons_of_neg _ (by simp [hq2])]
      exact ih (fun y hy => hall y (by simp [hy]))

/-- When every property's resolved name is known (`pn`), the code's
string-block comparison agrees with list equality of names. -/
theorem pf_cmp_congr (b : Blob) (h : Nat) (nm : List Nat) (es : List Entry)
    (p : Nat) (lk : List Nat) (pn : Nat × Nat × Nat → List Nat)
    (hwlk : wfName lk)
    (hnames : ∀ x ∈ propList nm es p,
      hasName b (FdtEngine.get_string_block_ptr b h + x.2.1) (pn x) ∧
        wfName (pn x)) :
    (propList nm es p).find? (fun x =>
        decide (Utilities.strcmp b
          (FdtEngine.get_string_block_ptr b h + x.2.1) lk 0 = 0)) =
      (propList nm es p).find? (fun x => pn x == lk) := by
  apply find_congr
  intro x hx
  obtain ⟨hn, hwn⟩ := hnames x hx
  have hiff := strcmp_eq_zero_iff b (FdtEngine.get_string_block_ptr b h + x.2.1)
    (pn x) lk hn hwn hwlk
  by_cases he : pn x = lk
  · simp [hiff.mpr he, he]
  · have hne : ¬ Utilities.strcmp b
        (FdtEngine.get_string_block_ptr b h + x.2.1) lk 0 = 0 :=
      fun hc => he (hiff.mp hc)
    simp [hne, he]

/-- `get_property` and `has_property` are one getter each over the
finder run. -/
theorem get_property_of_rpf (b : Blob) (fuel : Nat) (n : FdtNode)
    (pnm : Option Blob) (s : PropertyFinder)
    (hr : FdtNode.run_property_finder b fuel n pnm = .ok s) :
    FdtNode.get_property b fuel n pnm = .ok s.m_result ∧
    FdtNode.has_property b fuel n pnm = .ok s.m_property_found := by
  constructor
  · simp only [FdtNode.get_property]
    rw [hr]
  · simp only [FdtNode.has_property]
    rw [hr]

/-! ### Claim theorems: C1, C2, C3, C4, C8 -/

/-- C1: `move_to_next_token` advances by the per-kind rules — after
BEGIN_NODE it skips the tag plus the null-terminated name (`length + 1`
bytes rounded up to a 4-byte boundary when the name is non-empty, exactly
one padding word when the name is empty); after PROP it skips the tag, the
8-byte descriptor, and the decoded `len` bytes rounded up to a 4-byte
boundary; after END_NODE or NOP it skips only the tag; at END it does not
move. The boundary cases `len = 0`, `len` a multiple of 4, and `len` one
over a multiple of 4 are all instances of the universally quantified
statement (see the witness). -/
theorem C1_move_to_next_token_spec (b : Blob) (a : Nat) :
    (FdtEngine.read_value b a = FDT_BEGIN_NODE →
      FdtEngine.move_to_next_token b a =
        if Utilities.strlen b (a + 4) = 0 then a + 4 + 4
        else a + 4 + roundUp4 (Utilities.strlen b (a + 4) + 1)) ∧
    (FdtEngine.read_value b a = FDT_PROP →
      FdtEngine.move_to_next_token b a =
        a + 4 + 8 + roundUp4 (FdtEngine.read_value b (a + 4))) ∧
    (FdtEngine.read_value b a = FDT_END_NODE →
      FdtEngine.move_to_next_token b a = a + 4) ∧
    (FdtEngine.read_value b a = FDT_NOP →
      FdtEngine.move_to_next_token b a = a + 4) ∧
    (FdtEngine.read_value b a = FDT_END →
      FdtEngine.move_to_next_token b a = a) := by
  unfold FdtEngine.move_to_next_token
  refine ⟨fun h => ?_, fun h => ?_, fun h => ?_, fun h => ?_, fun h => ?_⟩ <;>
    rw [h] <;>
    norm_num [FDT_BEGIN_NODE, FDT_END_NODE, FDT_PROP, FDT_NOP, FDT_END]
  · by_cases hz : Utilities.strlen b (a + 4) = 0 <;>
      simp [hz, get_aligned_eq_roundUp4]
  · rw [get_aligned_eq_roundUp4, roundUp4_add_eight]
    omega

/-- C2 (code evaluation): on the default-constructed invalid handle (both
the header reference and the token position unset), `get_sub_node`,
`get_property` and `has_property` all hand the null token pointer straight
to the traversal engine, whose very first `read_value` dereferences it:
the modelled outcome is the undefined-behaviour marker `.ub`, for every
buffer, fuel and argument — not the "not found" results the claim
requires. -/
theorem C2_invalid_handle_ops_are_ub (b : Blob) (fuel : Nat)
    (nm ua pn : Option Blob) :
    FdtNode.get_sub_node b fuel {} nm ua = .ub ∧
    FdtNode.get_property b fuel {} pn = .ub ∧
    FdtNode.has_property b fuel {} pn = .ub :=
  ⟨rfl, rfl, rfl⟩

/-- C3: a walk whose start token is not BEGIN_NODE reports
INVALID_STRUCTURE_BLOCK (in particular when the token is END_NODE, the
malformed-blob scenario of the claim), and inside a walk any tag outside
BEGIN_NODE/END_NODE/PROP/NOP — including an END seen when the walk did not
start at the structure block's first token — aborts the walk with
INVALID_STRUCTURE_BLOCK. -/
theorem C3_malformed_structure (b : Blob) {σ : Type} (hdr : Option Nat)
    (act : TAction σ) (fuel start p : Nat) (s : σ) :
    (FdtEngine.read_value b p ≠ FDT_BEGIN_NODE →
      traverse_node b hdr act (fuel + 1) p s = .ok INVALID_STRUCTURE_BLOCK p s) ∧
    (FdtEngine.read_value b p = FDT_END_NODE →
      traverse_node b hdr act (fuel + 1) p s = .ok INVALID_STRUCTURE_BLOCK p s) ∧
    (act.satisfied s = false →
      FdtEngine.read_value b p ∉
        ([FDT_BEGIN_NODE, FDT_END_NODE, FDT_PROP, FDT_NOP, FDT_END] : List Nat) →
      traverse_loop b hdr act (fuel + 1) start p s =
        .ok INVALID_STRUCTURE_BLOCK p s) ∧
    (∀ h : Nat, hdr = some h → act.satisfied s = false →
      FdtEngine.read_value b p = FDT_END →
      start ≠ FdtEngine.get_structure_block_ptr b h →
      traverse_loop b hdr act (fuel + 1) start p s =
        .ok INVALID_STRUCTURE_BLOCK p s) := by
  refine ⟨fun h => ?_, fun h => ?_, fun hs h => ?_, fun h hh hs he hne => ?_⟩
  · simp [traverse_node, h]
  · simp [traverse_node, h, FDT_END_NODE, FDT_BEGIN_NODE]
  · simp only [List.mem_cons, List.not_mem_nil, or_false, not_or] at h
    obtain ⟨h1, h2, h3, h4, h5⟩ := h
    simp [traverse_loop, hs, h1, h2, h3, h4, h5]
  · subst hh
    simp [traverse_loop, hs, he, FDT_END, FDT_BEGIN_NODE, FDT_END_NODE, FDT_PROP,
      FDT_NOP, hne]

/-- C4: `fdt_open` yields a handle that `is_valid` reports valid exactly
when the buffer's first 4-byte big-endian field is the magic constant and
the base address is 8-byte aligned; on success the token position is
`base + off_dt_struct` (the decoded header field at byte offset 8), on
failure the result is the invalid handle — and the function is total, so
no exception is raised. -/
theorem C4_open_validity (b : Blob) (base : Nat) :
    ((fdt_open b base).is_valid = true ↔
      (FdtEngine.read_value b base = FDT_MAGIC ∧ base % 8 = 0)) ∧
    ((fdt_open b base).is_valid = true →
      (fdt_open b base).m_node_token_start =
        some (base + FdtEngine.read_value b (base + 8))) ∧
    ((fdt_open b base).is_valid = false → fdt_open b base = {}) := by
  unfold fdt_open
  split
  · next h8 =>
    split
    · next hm => simp [FdtNode.is_valid, FdtEngine.get_structure_block_ptr, hm, h8]
    · next hm => simp [FdtNode.is_valid, hm]
  · next h8 => simp [FdtNode.is_valid, h8]

/-- C8 (code evaluation): value-wise, `read_value` at any byte address —
aligned or not — returns the big-endian interpretation of the four bytes
there: the little-endian compilation (wide load then byte swap) and the
big-endian compilation (raw wide load, `load_be`) agree on it. This is the
value half of the claim; the mechanism half is refuted by the source text,
which dereferences the arbitrarily-aligned `uint32_t*` directly. -/
theorem C8_read_value_value_level (b : Blob) (a : Nat) :
    FdtEngine.read_value b a =
      byteAt b a * 2 ^ 24 + byteAt b (a + 1) * 2 ^ 16 +
        byteAt b (a + 2) * 2 ^ 8 + byteAt b (a + 3) ∧
    FdtEngine.load_be b a =
      byteAt b a * 2 ^ 24 + byteAt b (a + 1) * 2 ^ 16 +
        byteAt b (a + 2) * 2 ^ 8 + byteAt b (a + 3) := by
  constructor
  · rw [read_value_eq_load_be]
    unfold FdtEngine.load_be
    norm_num
  · unfold FdtEngine.load_be
    norm_num

/-- C6: with name `foo` and unit address `1000`, the node-name comparison
(the match `get_child` applies at every node it encounters) accepts a node
literally named `foo@1000` and rejects `foobar@1000` and `foo@10001`; and
with no unit address the comparison is exact full-string equality on the
encountered node name. -/
theorem C6_get_child_matching (b : Blob) (a : Nat) :
    (hasName b a nmFooAt1000 →
      NodeFinder.is_same_as b (some nmFoo) (some nmU1000) a = true) ∧
    (hasName b a nmFoobarAt1000 →
      NodeFinder.is_same_as b (some nmFoo) (some nmU1000) a = false) ∧
    (hasName b a nmFooAt10001 →
      NodeFinder.is_same_as b (some nmFoo) (some nmU1000) a = false) ∧
    (∀ nm tgt : List Nat, hasName b a nm → wfName nm → wfName tgt →
      (NodeFinder.is_same_as b (some tgt) none a = true ↔ nm = tgt)) := by
  refine ⟨fun hn => ?_, fun hn => ?_, fun hn => ?_, fun nm tgt hn hwn hwt => ?_⟩
  · rw [is_same_as_spec b a nmFooAt1000 nmFoo (some nmU1000) hn (by decide)
      (by decide) (fun x hx => by obtain rfl := Option.some.inj hx; decide)]
    decide
  · rw [is_same_as_spec b a nmFoobarAt1000 nmFoo (some nmU1000) hn (by decide)
      (by decide) (fun x hx => by obtain rfl := Option.some.inj hx; decide)]
    decide
  · rw [is_same_as_spec b a nmFooAt10001 nmFoo (some nmU1000) hn (by decide)
      (by decide) (fun x hx => by obtain rfl := Option.some.inj hx; decide)]
    decide
  · rw [is_same_as_spec b a nm tgt none hn hwn hwt (fun x hx => nomatch hx)]
    simp [specNameMatches]

/-- C9: with a unit address, the comparison checks only the first `k`
bytes of the target name, where `k` is the index of the encountered name's
first `@` — so the encountered pre-`@` name need only be a prefix of the
target: a node named `fo@1000` is accepted for target `foo` with unit
address `1000`, and `get_sub_node` on a tree whose only child is `fo@1000`
returns that child. -/
theorem C9_unit_address_prefix_match (b : Blob) (a : Nat) :
    (hasName b a nmFoAt1000 →
      NodeFinder.is_same_as b (some nmFoo) (some nmU1000) a = true) ∧
    (∀ (nm tgt ua : List Nat) (k : Nat), hasName b a nm → wfName nm →
      wfName tgt → wfName ua → firstAt nm = some k →
      (NodeFinder.is_same_as b (some tgt) (some ua) a = true ↔
        ((∀ i, i < k → nm.getD i 0 = tgt.getD i 0) ∧ nm.drop (k + 1) = ua))) ∧
    FdtNode.get_sub_node exBlob2 100 (fdt_open exBlob2 0) (some nmFoo)
      (some nmU1000) = .ok { m_node_token_start := some 48, m_fdt_header := some 0 } := by
  refine ⟨fun hn => ?_, fun nm tgt ua k hn hwn hwt hwua hfa => ?_, by decide⟩
  · rw [is_same_as_spec b a nmFoAt1000 nmFoo (some nmU1000) hn (by decide)
      (by decide) (fun x hx => by obtain rfl := Option.some.inj hx; decide)]
    decide
  · rw [is_same_as_spec b a nm tgt (some ua) hn hwn hwt
      (fun x hx => by obtain rfl := Option.some.inj hx; exact hwua)]
    simp [specNameMatches, hfa]

/-! ### Witnesses -/

/-- Witness for C1: every advance rule evaluated at a concrete token, the
PROP rule at the boundary lengths 0, 4 and 5, the BEGIN_NODE rule at an
empty name, a 3-byte name and a 4-byte name. -/
theorem C1_witness :
    FdtEngine.read_value bBeginEmpty 0 = FDT_BEGIN_NODE ∧
    Utilities.strlen bBeginEmpty 4 = 0 ∧
    FdtEngine.move_to_next_token bBeginEmpty 0 = 8 ∧
    FdtEngine.read_value bBeginAbc 0 = FDT_BEGIN_NODE ∧
    Utilities.strlen bBeginAbc 4 = 3 ∧
    FdtEngine.move_to_next_token bBeginAbc 0 = 8 ∧
    FdtEngine.read_value bBeginAbcd 0 = FDT_BEGIN_NODE ∧
    Utilities.strlen bBeginAbcd 4 = 4 ∧
    FdtEngine.move_to_next_token bBeginAbcd 0 = 12 ∧
    FdtEngine.read_value bProp0 0 = FDT_PROP ∧
    FdtEngine.read_value bProp0 4 = 0 ∧
    FdtEngine.move_to_next_token bProp0 0 = 12 ∧
    FdtEngine.read_value bProp4 0 = FDT_PROP ∧
    FdtEngine.read_value bProp4 4 = 4 ∧
    FdtEngine.move_to_next_token bProp4 0 = 16 ∧
    FdtEngine.read_value bProp5 0 = FDT_PROP ∧
    FdtEngine.read_value bProp5 4 = 5 ∧
    FdtEngine.move_to_next_token bProp5 0 = 20 ∧
    FdtEngine.read_value bEndNode 0 = FDT_END_NODE ∧
    FdtEngine.move_to_next_token bEndNode 0 = 4 ∧
    FdtEngine.read_value bNop 0 = FDT_NOP ∧
    FdtEngine.move_to_next_token bNop 0 = 4 ∧
    FdtEngine.read_value bEnd 0 = FDT_END ∧
    FdtEngine.move_to_next_token bEnd 0 = 0 :=
  ⟨by decide, by decide,
   by rw [(C1_move_to_next_token_spec bBeginEmpty 0).1 (by decide)]; decide,
   by decide, by decide,
   by rw [(C1_move_to_next_token_spec bBeginAbc 0).1 (by decide)]; decide,
   by decide, by decide,
   by rw [(C1_move_to_next_token_spec bBeginAbcd 0).1 (by decide)]; decide,
   by decide, by decide,
   by rw [(C1_move_to_next_token_spec bProp0 0).2.1 (by decide)]; decide,
   by decide, by decide,
   by rw [(C1_move_to_next_token_spec bProp4 0).2.1 (by decide)]; decide,
   by decide, by decide,
   by rw [(C1_move_to_next_token_spec bProp5 0).2.1 (by decide)]; decide,
   by decide,
   by rw [(C1_move_to_next_token_spec bEndNode 0).2.2.1 (by decide)],
   by decide,
   by rw [(C1_move_to_next_token_spec bNop 0).2.2.2.1 (by decide)],
   by decide,
   by rw [(C1_move_to_next_token_spec bEnd 0).2.2.2.2 (by decide)]⟩

/-- Witness for C3: on the malformed blob whose structure block starts
with END_NODE, the walk from the block start reports the malformed-structure
return value; a tag that is no token (7) aborts the loop the same way, and
so does an END seen by a walk that did not start at the block's first
token. -/
theorem C3_witness :
    FdtEngine.read_value exBlob3 40 ≠ FDT_BEGIN_NODE ∧
    FdtEngine.read_value exBlob3 40 = FDT_END_NODE ∧
    traverse_node exBlob3 (some 0)
        (nfAction exBlob3 (some 0) (some nmFoo) none) (5 + 1) 40 {} =
      .ok INVALID_STRUCTURE_BLOCK 40 {} ∧
    traverse_loop exBlob3 (some 0)
        (nfAction exBlob3 (some 0) (some nmFoo) none) (5 + 1) 44 48 {} =
      .ok INVALID_STRUCTURE_BLOCK 48 {} ∧
    traverse_loop exBlob3 (some 0)
        (nfAction exBlob3 (some 0) (some nmFoo) none) (5 + 1) 48 44 {} =
      .ok INVALID_STRUCTURE_BLOCK 44 {} :=
  ⟨by decide, by decide,
   (C3_malformed_structure exBlob3 (some 0)
      (nfAction exBlob3 (some 0) (some nmFoo) none) 5 0 40 {}).1 (by decide),
   (C3_malformed_structure exBlob3 (some 0)
      (nfAction exBlob3 (some 0) (some nmFoo) none) 5 44 48 {}).2.2.1
     (by decide) (by decide),
   (C3_malformed_structure exBlob3 (some 0)
      (nfAction exBlob3 (some 0) (some nmFoo) none) 5 48 44 {}).2.2.2 0 rfl
     (by decide) (by decide) (by decide)⟩

/-- Witness for C4: a well-formed buffer opened at an aligned base yields
a valid handle positioned at `base + off_dt_struct`; the same buffer at a
misaligned base yields the invalid handle. -/
theorem C4_witness :
    (fdt_open exBlob2 0).is_valid = true ∧
    (fdt_open exBlob2 0).m_node_token_start =
      some (0 + FdtEngine.read_value exBlob2 (0 + 8)) ∧
    (fdt_open exBlob2 4).is_valid = false ∧
    fdt_open exBlob2 4 = {} :=
  ⟨by decide,
   (C4_open_validity exBlob2 0).2.1 (by decide),
   by decide,
   (C4_open_validity exBlob2 4).2.2 (by decide)⟩

/-- Witness for C6: the matching rules evaluated on concrete buffers that
hold each of the three node names, and the no-unit-address equality at a
concrete name. -/
theorem C6_witness :
    hasName nmFooAt1000 0 nmFooAt1000 ∧
    NodeFinder.is_same_as nmFooAt1000 (some nmFoo) (some nmU1000) 0 = true ∧
    hasName nmFoobarAt1000 0 nmFoobarAt1000 ∧
    NodeFinder.is_same_as nmFoobarAt1000 (some nmFoo) (some nmU1000) 0 = false ∧
    hasName nmFooAt10001 0 nmFooAt10001 ∧
    NodeFinder.is_same_as nmFooAt10001 (some nmFoo) (some nmU1000) 0 = false ∧
    (NodeFinder.is_same_as nmFooAt1000 (some nmFooAt1000) none 0 = true ↔
      nmFooAt1000 = nmFooAt1000) :=
  ⟨by decide,
   (C6_get_child_matching nmFooAt1000 0).1 (by decide),
   by decide,
   (C6_get_child_matching nmFoobarAt1000 0).2.1 (by decide),
   by decide,
   (C6_get_child_matching nmFooAt10001 0).2.2.1 (by decide),
   (C6_get_child_matching nmFooAt1000 0).2.2.2 nmFooAt1000 nmFooAt1000
     (by decide) (by decide) (by decide)⟩

/-- Witness for C9: the prefix quirk evaluated on a concrete buffer that
holds the name `fo@1000` (whose first `@` is at index 2), and the
characterization applied there. -/
theorem C9_witness :
    hasName nmFoAt1000 0 nmFoAt1000 ∧
    NodeFinder.is_same_as nmFoAt1000 (some nmFoo) (some nmU1000) 0 = true ∧
    firstAt nmFoAt1000 = some 2 ∧
    (NodeFinder.is_same_as nmFoAt1000 (some nmFoo) (some nmU1000) 0 = true ↔
      ((∀ i, i < 2 → nmFoAt1000.getD i 0 = nmFoo.getD i 0) ∧
        nmFoAt1000.drop 3 = nmU1000)) :=
  ⟨by decide,
   (C9_unit_address_prefix_match nmFoAt1000 0).1 (by decide),
   by decide,
   (C9_unit_address_prefix_match nmFoAt1000 0).2.1 nmFoAt1000 nmFoo nmU1000 2
     (by decide) (by decide) (by decide) (by decide) (by decide)⟩

/-- C5: on a valid handle into a well-formed serialized tree, the property
lookup ends with `m_property_found = false` (so `has_property` returns
false) when no property of the searched subtree bears the looked-for name,
and ends with `m_property_found = true` and `m_property_length = 0` (so
`has_property` returns true) when the first property bearing it has a
zero-length value: the empty-but-found outcome is observably distinct from
not-found through the public interface. -/
theorem C5_zero_length_vs_absent (b : Blob) (h : Nat) (nm : List Nat)
    (es : List Entry) (p : Nat) (lk : List Nat) (fuel : Nat)
    (pn : Nat × Nat × Nat → List Nat)
    (hwnm : wfName nm) (hwes : wfEntriesB es = true) (hwlk : wfName lk)
    (hpos : NodePlacement b h nm es p) (hfl : entriesFuel es < fuel)
    (hnames : ∀ x ∈ propList nm es p,
      hasName b (FdtEngine.get_string_block_ptr b h + x.2.1) (pn x) ∧
        wfName (pn x)) :
    ((∀ x ∈ propList nm es p, pn x ≠ lk) →
      FdtNode.run_property_finder b fuel
          { m_node_token_start := some p, m_fdt_header := some h } (some lk) =
        .ok { m_result := none, m_looked_property := some lk,
              m_property_length := 0, m_property_found := false } ∧
      FdtNode.has_property b fuel
          { m_node_token_start := some p, m_fdt_header := some h } (some lk) =
        .ok false) ∧
    (∀ x0, (propList nm es p).find? (fun x => pn x == lk) = some x0 →
      x0.2.2 = 0 →
      FdtNode.run_property_finder b fuel
          { m_node_token_start := some p, m_fdt_header := some h } (some lk) =
        .ok { m_result := none, m_looked_property := some lk,
              m_property_length := 0, m_property_found := true } ∧
      FdtNode.has_property b fuel
          { m_node_token_start := some p, m_fdt_header := some h } (some lk) =
        .ok true) := by
  have hsim := run_pf_sim b h nm es p lk fuel hwnm hwes hpos hfl
  rw [pf_cmp_congr b h nm es p lk pn hwlk hnames] at hsim
  constructor
  · intro habs
    have hnone : (propList nm es p).find? (fun x => pn x == lk) = none := by
      rw [List.find?_eq_none]
      intro x hx
      simpa using habs x hx
    rw [hnone] at hsim
    refine ⟨hsim, ?_⟩
    exact (get_property_of_rpf b fuel _ (some lk) _ hsim).2
  · intro x0 hfind hlen
    rw [hfind] at hsim
    simp [hlen] at hsim
    refine ⟨hsim, ?_⟩
    exact (get_property_of_rpf b fuel _ (some lk) _ hsim).2

/-- C7: `get_sub_node` and `get_property` search the whole subtree rooted
at the handle — every descendant, depth first, pre order, which is exactly
the order `nodeList` and `propList` enumerate — and return the first match
of that order, not only matches among immediate children or own
properties. -/
theorem C7_whole_subtree_first_match (b : Blob) (h : Nat) (nm : List Nat)
    (es : List Entry) (p : Nat) (tgt : List Nat) (u : Option (List Nat))
    (lk : List Nat) (fuel : Nat)
    (hwnm : wfName nm) (hwes : wfEntriesB es = true)
    (hwt : wfName tgt) (hwu : ∀ x, u = some x → wfName x)
    (hpos : NodePlacement b h nm es p) (hfl : entriesFuel es < fuel) :
    FdtNode.get_sub_node b fuel
        { m_node_token_start := some p, m_fdt_header := some h } (some tgt) u =
      .ok (match (nodeList nm es p).find? (fun x => specNameMatches x.2 tgt u) with
        | some x => { m_node_token_start := some x.1, m_fdt_header := some h }
        | none => {}) ∧
    FdtNode.get_property b fuel
        { m_node_token_start := some p, m_fdt_header := some h } (some lk) =
      .ok (match (propList nm es p).find? (fun x =>
          decide (Utilities.strcmp b
            (FdtEngine.get_string_block_ptr b h + x.2.1) lk 0 = 0)) with
        | some x => if x.2.2 ≠ 0 then some (x.1 + 12) else none
        | none => none) := by
  refine ⟨get_sub_node_sim b h nm es p tgt u fuel hwnm hwes hwt hwu hpos hfl, ?_⟩
  have hsim := run_pf_sim b h nm es p lk fuel hwnm hwes hpos hfl
  have hg := (get_property_of_rpf b fuel _ (some lk) _ hsim).1
  rcases hf : (propList nm es p).find? (fun x =>
      decide (Utilities.strcmp b
        (FdtEngine.get_string_block_ptr b h + x.2.1) lk 0 = 0)) with _ | x
  · rw [hf] at hg
    rw [hf]
    simpa using hg
  · rw [hf] at hg
    rw [hf]
    simpa using hg

/-- C10: the pointer `get_property` returns is null both when the
looked-for name is absent from the searched subtree and when its first
match carries a zero-length value — the result pointer is assigned only
when the decoded length is nonzero — while `has_property` returns false in
the absent case and true in the zero-length-found case. -/
theorem C10_null_pointer_both_ways (b : Blob) (h : Nat) (nm : List Nat)
    (es : List Entry) (p : Nat) (lk : List Nat) (fuel : Nat)
    (pn : Nat × Nat × Nat → List Nat)
    (hwnm : wfName nm) (hwes : wfEntriesB es = true) (hwlk : wfName lk)
    (hpos : NodePlacement b h nm es p) (hfl : entriesFuel es < fuel)
    (hnames : ∀ x ∈ propList nm es p,
      hasName b (FdtEngine.get_string_block_ptr b h + x.2.1) (pn x) ∧
        wfName (pn x)) :
    ((∀ x ∈ propList nm es p, pn x ≠ lk) →
      FdtNode.get_property b fuel
          { m_node_token_start := some p, m_fdt_header := some h } (some lk) =
        .ok none ∧
      FdtNode.has_property b fuel
          { m_node_token_start := some p, m_fdt_header := some h } (some lk) =
        .ok false) ∧
    (∀ x0, (propList nm es p).find? (fun x => pn x == lk) = some x0 →
      (x0.2.2 = 0 →
        FdtNode.get_property b fuel
            { m_node_token_start := some p, m_fdt_header := some h } (some lk) =
          .ok none ∧
        FdtNode.has_property b fuel
            { m_node_token_start := some p, m_fdt_header := some h } (some lk) =
          .ok true) ∧
      (x0.2.2 ≠ 0 →
        FdtNode.get_property b fuel
            { m_node_token_start := some p, m_fdt_header := some h } (some lk) =
          .ok (some (x0.1 + 12)))) := by
  have hsim := run_pf_sim b h nm es p lk fuel hwnm hwes hpos hfl
  rw [pf_cmp_congr b h nm es p lk pn hwlk hnames] at hsim
  constructor
  · intro habs
    have hnone : (propList nm es p).find? (fun x => pn x == lk) = none := by
      rw [List.find?_eq_none]
      intro x hx
      simpa using habs x hx
    rw [hnone] at hsim
    obtain ⟨hg, hh⟩ := get_property_of_rpf b fuel _ (some lk) _ hsim
    exact ⟨hg, hh⟩
  · intro x0 hfind
    rw [hfind] at hsim
    constructor
    · intro hlen
      simp [hlen] at hsim
      obtain ⟨hg, hh⟩ := get_property_of_rpf b fuel _ (some lk) _ hsim
      exact ⟨hg, hh⟩
    · intro hne
      simp [hne] at hsim
      obtain ⟨hg, _⟩ := get_property_of_rpf b fuel _ (some lk) _ hsim
      exact hg

-- Evaluation lemmas for the concrete tree: the serialization functions
-- are compiled by well-founded recursion and do not reduce inside the
-- kernel, so the witnesses first rewrite them into literal lists.

theorem structSer : serializeNode [] rootEs ++ be32 FDT_END =
    [0, 0, 0, 1, 0, 0, 0, 0, 0, 0, 0, 3, 0, 0, 0, 5, 0, 0, 0, 0, 104, 101,
     108, 108, 111, 0, 0, 0, 0, 0, 0, 3, 0, 0, 0, 0, 0, 0, 0, 11, 0, 0, 0, 1,
     102, 111, 111, 98, 97, 114, 64, 49, 48, 48, 48, 0, 0, 0, 0, 2, 0, 0, 0,
     1, 102, 111, 111, 64, 49, 48, 48, 48, 49, 0, 0, 0, 0, 0, 0, 2, 0, 0, 0,
     1, 102, 111, 111, 64, 49, 48, 48, 48, 0, 0, 0, 0, 0, 0, 0, 1, 103, 114,
     97, 110, 100, 0, 0, 0, 0, 0, 0, 3, 0, 0, 0, 4, 0, 0, 0, 17, 1, 2, 3, 4,
     0, 0, 0, 2, 0, 0, 0, 2, 0, 0, 0, 2, 0, 0, 0, 9] := by
  simp only [serializeNode, serializeEntries, rootEs, fooSubEs]
  rfl

theorem exBlob1_lit : exBlob1 =
    [208, 13, 254, 237, 0, 0, 0, 206, 0, 0, 0, 40, 0, 0, 0, 180, 0, 0, 0, 0,
     0, 0, 0, 17, 0, 0, 0, 16, 0, 0, 0, 0, 0, 0, 0, 26, 0, 0, 0, 140, 0, 0,
     0, 1, 0, 0, 0, 0, 0, 0, 0, 3, 0, 0, 0, 5, 0, 0, 0, 0, 104, 101, 108,
     108, 111, 0, 0, 0, 0, 0, 0, 3, 0, 0, 0, 0, 0, 0, 0, 11, 0, 0, 0, 1, 102,
     111, 111, 98, 97, 114, 64, 49, 48, 48, 48, 0, 0, 0, 0, 2, 0, 0, 0, 1,
     102, 111, 111, 64, 49, 48, 48, 48, 49, 0, 0, 0, 0, 0, 0, 2, 0, 0, 0, 1,
     102, 111, 111, 64, 49, 48, 48, 48, 0, 0, 0, 0, 0, 0, 0, 1, 103, 114, 97,
     110, 100, 0, 0, 0, 0, 0, 0, 3, 0, 0, 0, 4, 0, 0, 0, 17, 1, 2, 3, 4, 0,
     0, 0, 2, 0, 0, 0, 2, 0, 0, 0, 2, 0, 0, 0, 9, 99, 111, 109, 112, 97, 116,
     105, 98, 108, 101, 0, 101, 109, 112, 116, 121, 0, 100, 101, 101, 112,
     112, 114, 111, 112, 0] := by
  rw [exBlob1, structSer]
  rfl

theorem wfRootEs : wfEntriesB rootEs = true := by
  simp only [wfEntriesB, rootEs, fooSubEs]
  rfl

theorem fuelRootEs : entriesFuel rootEs = 28 := by
  simp only [entriesFuel, rootEs, fooSubEs]

theorem evList_lit : nodeEvents [] rootEs 40 =
    [Ev.evBegin 40 [], Ev.evProp 48 0 5, Ev.evProp 68 11 0,
     Ev.evBegin 80 nmFoobarAt1000, Ev.evEnd 96,
     Ev.evBegin 100 nmFooAt10001, Ev.evEnd 116,
     Ev.evBegin 120 nmFooAt1000,
     Ev.evBegin 136 nmGrand, Ev.evProp 148 17 4, Ev.evEnd 164,
     Ev.evEnd 168, Ev.evEnd 172] := by
  have h1 : entriesSize rootEs = 124 := by
    simp only [entriesSize, rootEs, fooSubEs]
    norm_num [nameRegion, roundUp4, valHello, nmGrand, nmFoobarAt1000,
      nmFooAt10001, nmFooAt1000]
  have h2 : entriesEvents rootEs 48 =
      [Ev.evProp 48 0 5, Ev.evProp 68 11 0,
       Ev.evBegin 80 nmFoobarAt1000, Ev.evEnd 96,
       Ev.evBegin 100 nmFooAt10001, Ev.evEnd 116,
       Ev.evBegin 120 nmFooAt1000,
       Ev.evBegin 136 nmGrand, Ev.evProp 148 17 4, Ev.evEnd 164,
       Ev.evEnd 168] := by
    simp only [entriesEvents, entriesSize, rootEs, fooSubEs]
    norm_num [nameRegion, roundUp4, valHello, nmGrand, nmFoobarAt1000,
      nmFooAt10001, nmFooAt1000]
  have h3 : (40 : Nat) + 4 + nameRegion [] = 48 := by
    norm_num [nameRegion, roundUp4]
  rw [nodeEvents, h3, h1, h2]
  norm_num

theorem nodeList_lit : nodeList [] rootEs 40 =
    [(40, []), (80, nmFoobarAt1000), (100, nmFooAt10001),
     (120, nmFooAt1000), (136, nmGrand)] := by
  rw [nodeList, evList_lit]
  rfl

theorem propList_lit : propList [] rootEs 40 =
    [(48, 0, 5), (68, 11, 0), (148, 17, 4)] := by
  rw [propList, evList_lit]
  rfl

theorem exPlacement : NodePlacement exBlob1 0 [] rootEs 40 := by
  refine Or.inr ⟨?_, ?_⟩
  · rw [exBlob1_lit]
    decide
  · rw [exBlob1_lit, structSer]
    decide

theorem exNames : ∀ x ∈ propList [] rootEs 40,
    hasName exBlob1 (FdtEngine.get_string_block_ptr exBlob1 0 + x.2.1) (pnEx x) ∧
      wfName (pnEx x) := by
  rw [propList_lit, exBlob1_lit]
  decide

theorem C5_witness :
    FdtNode.run_property_finder exBlob1 200
        { m_node_token_start := some 40, m_fdt_header := some 0 }
        (some [120]) =
      .ok { m_result := none, m_looked_property := some [120],
            m_property_length := 0, m_property_found := false } ∧
    FdtNode.has_property exBlob1 200
        { m_node_token_start := some 40, m_fdt_header := some 0 }
        (some [120]) = .ok false ∧
    FdtNode.run_property_finder exBlob1 200
        { m_node_token_start := some 40, m_fdt_header := some 0 }
        (some nmEmptyProp) =
      .ok { m_result := none, m_looked_property := some nmEmptyProp,
            m_property_length := 0, m_property_found := true } ∧
    FdtNode.has_property exBlob1 200
        { m_node_token_start := some 40, m_fdt_header := some 0 }
        (some nmEmptyProp) = .ok true := by
  have habs := (C5_zero_length_vs_absent exBlob1 0 [] rootEs 40 [120] 200 pnEx
    (by decide) wfRootEs (by decide) exPlacement (by rw [fuelRootEs]; decide)
    exNames).1 (by rw [propList_lit]; decide)
  have hfnd := (C5_zero_length_vs_absent exBlob1 0 [] rootEs 40 nmEmptyProp 200
    pnEx (by decide) wfRootEs (by decide) exPlacement
    (by rw [fuelRootEs]; decide) exNames).2 (68, 11, 0)
    (by rw [propList_lit]; decide) rfl
  exact ⟨habs.1, habs.2, hfnd.1, hfnd.2⟩

theorem C7_witness :
    FdtNode.get_sub_node exBlob1 200
        { m_node_token_start := some 40, m_fdt_header := some 0 }
        (some nmGrand) none =
      .ok { m_node_token_start := some 136, m_fdt_header := some 0 } ∧
    FdtNode.get_property exBlob1 200
        { m_node_token_start := some 40, m_fdt_header := some 0 }
        (some nmDeepprop) = .ok (some 160) := by
  have hpair := C7_whole_subtree_first_match exBlob1 0 [] rootEs 40 nmGrand none
    nmDeepprop 200 (by decide) wfRootEs (by decide)
    (fun x hx => nomatch hx) exPlacement (by rw [fuelRootEs]; decide)
  refine ⟨hpair.1.trans ?_, hpair.2.trans ?_⟩
  · rw [nodeList_lit]
    decide
  · rw [propList_lit, exBlob1_lit]
    decide

theorem C10_witness :
    FdtNode.get_property exBlob1 200
        { m_node_token_start := some 40, m_fdt_header := some 0 }
        (some [120]) = .ok none ∧
    FdtNode.get_property exBlob1 200
        { m_node_token_start := some 40, m_fdt_header := some 0 }
        (some nmEmptyProp) = .ok none ∧
    FdtNode.has_property exBlob1 200
        { m_node_token_start := some 40, m_fdt_header := some 0 }
        (some nmEmptyProp) = .ok true ∧
    FdtNode.get_property exBlob1 200
        { m_node_token_start := some 40, m_fdt_header := some 0 }
        (some nmCompatible) = .ok (some 60) := by
  have habs := (C10_null_pointer_both_ways exBlob1 0 [] rootEs 40 [120] 200 pnEx
    (by decide) wfRootEs (by decide) exPlacement (by rw [fuelRootEs]; decide)
    exNames).1 (by rw [propList_lit]; decide)
  have hzero := ((C10_null_pointer_both_ways exBlob1 0 [] rootEs 40 nmEmptyProp
    200 pnEx (by decide) wfRootEs (by decide) exPlacement
    (by rw [fuelRootEs]; decide) exNames).2 (68, 11, 0)
    (by rw [propList_lit]; decide)).1 rfl
  have hnz := ((C10_null_pointer_both_ways exBlob1 0 [] rootEs 40 nmCompatible
    200 pnEx (by decide) wfRootEs (by decide) exPlacement
    (by rw [fuelRootEs]; decide) exNames).2 (48, 0, 5)
    (by rw [propList_lit]; decide)).2 (by decide)
  exact ⟨habs.1, hzero.1, hzero.2, hnz⟩

end fdt
